import Mathlib

/-!
Verification of the ColorLab numerical optimization core.

This file is a shallow embedding, over exact rational arithmetic, of the
optimization core of the ColorLab repository: the blend-mode catalog with its
forward per-channel evaluators and analytic inverses (blendModes file), the
single-blend optimizer (optimizer.js), the HSL and Levels optimizers
(hslTool.js and the levels file), and the multi-step sequence search
(multiStepOptimizer.js).

Modelling conventions, used throughout:
* JS numbers are modelled as `ℚ`.  The source never relies on floating-point
  rounding for the properties proved here; where the source guards against
  `NaN`/`Infinity` (`isFinite` checks) the rational model has no such values,
  which is noted at the definition concerned.
* The perceptual metric `deltaE(rgbToLab a, rgbToLab b)` (CIEDE2000 over Lab,
  colorUtils file) is irrational (it uses `atan2`/`sin`/`cos`/`exp`/`pow`), so
  every definition that consumes it is parametrised by an abstract metric
  `dE : List ℚ → List ℚ → ℚ` standing for the composite
  `fun t a => deltaE (rgbToLab t) (rgbToLab a)`.  All theorems below hold for
  every metric, hence in particular for the concrete CIEDE2000 one.
* `Math.random()` draws are passed in as explicit oracle arguments, and the
  theorems quantify over them.
* Loop accumulation (`+=`, `Math.max` folds, array `push`) is rendered as
  structural recursion producing the same lists and the same rational values;
  sums therefore associate to the right instead of the left, which is
  value-preserving in `ℚ`.
-/

namespace ColorLab

/-- JS `Math.round`: round half toward positive infinity, `⌊x + 1/2⌋`
(written with the executable `Rat.floor`; see `jsRound_def`). -/
def jsRound (q : ℚ) : ℤ := (q + 1/2).floor

theorem ratFloor_eq_intFloor (q : ℚ) : q.floor = ⌊q⌋ := by
  rw [Rat.floor_def', Rat.floor_def]

theorem jsRound_def (q : ℚ) : jsRound q = ⌊q + 1/2⌋ := ratFloor_eq_intFloor _

/-- colorUtils `clamp`: `Math.max(min, Math.min(max, val))`. -/
def clamp (val lo hi : ℚ) : ℚ := max lo (min hi val)

theorem clamp_mem {lo hi : ℚ} (v : ℚ) (h : lo ≤ hi) :
    lo ≤ clamp v lo hi ∧ clamp v lo hi ≤ hi := by
  unfold clamp
  constructor
  · exact le_max_left _ _
  · exact max_le h (min_le_left _ _)

theorem jsRound_mono {a b : ℚ} (h : a ≤ b) : jsRound a ≤ jsRound b := by
  rw [jsRound_def, jsRound_def]
  exact Int.floor_le_floor (by linarith)

theorem jsRound_intCast (n : ℤ) : jsRound (n : ℚ) = n := by
  rw [jsRound_def, add_comm, Int.floor_add_int]
  norm_num

theorem jsRound_add_two (a : ℚ) : jsRound (a + 2) = jsRound a + 2 := by
  rw [jsRound_def, jsRound_def]
  have h2 : a + 2 + 1/2 = (a + 1/2) + (2:ℤ) := by push_cast; ring
  rw [h2, Int.floor_add_int]

/-- Value of a single hexadecimal digit, case-insensitive (the `[a-f\d]`
character class of the `hexToRgb` regex together with the `i` flag). -/
def hexDigitVal (c : Char) : Option ℕ :=
  if c = '0' then some 0 else if c = '1' then some 1
  else if c = '2' then some 2 else if c = '3' then some 3
  else if c = '4' then some 4 else if c = '5' then some 5
  else if c = '6' then some 6 else if c = '7' then some 7
  else if c = '8' then some 8 else if c = '9' then some 9
  else if c = 'a' ∨ c = 'A' then some 10
  else if c = 'b' ∨ c = 'B' then some 11
  else if c = 'c' ∨ c = 'C' then some 12
  else if c = 'd' ∨ c = 'D' then some 13
  else if c = 'e' ∨ c = 'E' then some 14
  else if c = 'f' ∨ c = 'F' then some 15
  else none

/-- colorUtils `hexToRgb`: parse `^#?([a-f\d]{2})([a-f\d]{2})([a-f\d]{2})$`
case-insensitively and return the three 0–255 channel values, else `null`. -/
def hexToRgb (hex : String) : Option (List ℚ) :=
  let cs := hex.toList
  let cs := match cs with
    | '#' :: rest => rest
    | other => other
  match cs with
  | [c1, c2, c3, c4, c5, c6] => do
      let a ← hexDigitVal c1
      let b ← hexDigitVal c2
      let c ← hexDigitVal c3
      let d ← hexDigitVal c4
      let e ← hexDigitVal c5
      let f ← hexDigitVal c6
      pure [((16 * a + b : ℕ) : ℚ), ((16 * c + d : ℕ) : ℚ), ((16 * e + f : ℕ) : ℚ)]
  | _ => none

/-- `hexToRgb` lifted to a possibly-missing field: in JS, calling
`hexToRgb(undefined)` coerces the argument to the string "undefined", which
does not match the regex, so the result is `null`. -/
def hexToRgbO (o : Option String) : Option (List ℚ) := o.bind hexToRgb

/-- Lower-case hexadecimal digit character, as produced by JS
`Number.prototype.toString(16)`. -/
def hexChar (n : ℕ) : Char :=
  if n = 0 then '0' else if n = 1 then '1' else if n = 2 then '2'
  else if n = 3 then '3' else if n = 4 then '4' else if n = 5 then '5'
  else if n = 6 then '6' else if n = 7 then '7' else if n = 8 then '8'
  else if n = 9 then '9' else if n = 10 then 'a' else if n = 11 then 'b'
  else if n = 12 then 'c' else if n = 13 then 'd' else if n = 14 then 'e'
  else 'f'

/-- One channel of colorUtils `rgbToHex`: `Math.round(clamp(x,0,255))`
printed in base 16 and left-padded to two digits.  For values in 0–255 the
two-digit rendering below coincides with pad-to-two of `toString(16)`. -/
def byteToHex (q : ℚ) : String :=
  let v := (jsRound (clamp q 0 255)).toNat
  String.mk [hexChar (v / 16), hexChar (v % 16)]

/-- colorUtils `rgbToHex`. -/
def rgbToHex (rgb : List ℚ) : String :=
  "#" ++ (rgb.map byteToHex).foldl (· ++ ·) ""

/-! ## The blend-mode catalog

Forward per-channel evaluators and the analytic `inverse` functions of the 17
catalog entries (blendModes file).  The `inverseSource` functions of the
catalog are consumed only by UI paths outside the claims and are not embedded.
`null` returns are modelled as `none`.  The source's `isFinite` guards are
vacuous here because `ℚ` has no non-finite values (every branch that could
produce `Infinity`/`NaN` in JS is behind an explicit divisor-is-zero test,
except where noted). -/

/-- Forward per-channel Vivid Light (used for Hard Mix as well). -/
def vividLightChannel (s b : ℚ) : ℚ :=
  if b < 1/2 then
    if b ≤ 0 then 0 else 1 - (1 - s) / (2 * b)
  else if 1 ≤ b then 1
  else s / (2 * (1 - b))

/-- Forward per-channel blend application `applyBlendChannel(modeName, s, b)`,
a literal rendering of the source's `switch` statement (including its
`default` branch returning `s`). -/
def applyBlendChannel (modeName : String) (s b : ℚ) : ℚ :=
  if modeName = "Normal" then b
  else if modeName = "Multiply" then s * b
  else if modeName = "Screen" then 1 - (1 - s) * (1 - b)
  else if modeName = "Linear Dodge (Add)" then clamp (s + b) 0 1
  else if modeName = "Subtract" then clamp (s - b) 0 1
  else if modeName = "Divide" then (if b = 0 then (if s = 0 then 0 else 1) else s / b)
  else if modeName = "Difference" then |s - b|
  else if modeName = "Overlay" then
    (if s < 1/2 then 2 * s * b else 1 - 2 * (1 - s) * (1 - b))
  else if modeName = "Hard Light" then
    (if b < 1/2 then 2 * s * b else 1 - 2 * (1 - s) * (1 - b))
  else if modeName = "Soft Light (Pegtop)" then (1 - 2 * b) * s * s + 2 * b * s
  else if modeName = "Color Burn" then (if b = 0 then 0 else 1 - (1 - s) / b)
  else if modeName = "Linear Burn" then clamp (s + b - 1) 0 1
  else if modeName = "Color Dodge" then (if b = 1 then 1 else s / (1 - b))
  else if modeName = "Vivid Light" then vividLightChannel s b
  else if modeName = "Linear Light" then clamp (s + 2 * b - 1) 0 1
  else if modeName = "Pin Light" then
    (if b < 1/2 then min s (2 * b) else max s (2 * b - 1))
  else if modeName = "Hard Mix" then
    (if vividLightChannel s b < 1/2 then 0 else 1)
  else s

def normalInverse (_s t : ℚ) : Option ℚ := some t

def multiplyInverse (s t : ℚ) : Option ℚ :=
  if s = 0 then (if t = 0 then some (1/2) else none) else some (t / s)

def screenInverse (s t : ℚ) : Option ℚ :=
  if s = 1 then (if t = 1 then some (1/2) else none) else some (1 - (1 - t) / (1 - s))

def subtractInverse (s t : ℚ) : Option ℚ := some (s - t)

def divideInverse (s t : ℚ) : Option ℚ :=
  if t = 0 then (if s = 0 then some (1/2) else none) else some (s / t)

def differenceInverse (s t : ℚ) : Option ℚ := some (s - t)

def overlayInverse (s t : ℚ) : Option ℚ :=
  if s < 1/2 then
    if s = 0 then (if t = 0 then some (1/2) else none) else some (t / (2 * s))
  else
    if s = 1 then (if t = 1 then some (1/2) else none)
    else some (1 - (1 - t) / (2 * (1 - s)))

/-- Tail of the Hard Light inverse after the multiply branch failed: return
the screen branch when self-consistent (`b_s ≥ 0.5`).  The source's last line
(`return b_m < 0.5 ? b_m : b_s >= 0.5 ? b_s : null`) evaluates, in every state
in which it is reachable, to `null` (when `b_m` is `null`, JS coerces it to 0
so `b_m < 0.5` is true and `b_m`, i.e. `null`, is returned; when `b_m ≥ 0.5`,
the earlier returns ensure `b_s` is `null` — coerced to 0, failing `≥ 0.5` —
or `b_s < 0.5`), so it is rendered as `none`. -/
def hardLightInverseScreenBranch (s t : ℚ) : Option ℚ :=
  match (if s = 1 then none else some (1 - (1 - t) / (2 * (1 - s))) : Option ℚ) with
  | some y => if 1/2 ≤ y then some y else none
  | none => none

def hardLightInverse (s t : ℚ) : Option ℚ :=
  match (if s = 0 then none else some (t / (2 * s)) : Option ℚ) with
  | some x => if x < 1/2 then some x else hardLightInverseScreenBranch s t
  | none => hardLightInverseScreenBranch s t

def softLightInverse (s t : ℚ) : Option ℚ :=
  if s = 0 ∨ s = 1 then (if s = t then some (1/2) else none)
  else some (1/2 * (1 - (s - t) / (s * (1 - s))))

def colorBurnInverse (s t : ℚ) : Option ℚ :=
  if s = 0 then (if t = 0 then some (1/2) else none)
  else if s = 1 then (if t = 1 then some (1/2) else none)
  else if s < t then none
  else if t = s then some 1
  else if t = 1 then none
  else some ((1 - s) / (1 - t))

def linearBurnInverse (s t : ℚ) : Option ℚ := some (t - s + 1)

def colorDodgeInverse (s t : ℚ) : Option ℚ :=
  if s = 0 then
    (if t = 0 then some (1/2) else if t = 1 then some 1 else none)
  else if s = 1 then (if t = 1 then some (1/2) else none)
  else if t = 0 then none
  else if t = s then some 0
  else if t < s then none
  else some (1 - s / t)

def linearDodgeInverse (s t : ℚ) : Option ℚ := some (t - s)

/-- Tail of the Vivid Light inverse after the burn branch failed: return the
dodge branch when self-consistent.  As for Hard Light, the source's final
line returns `null` in every reachable state (JS `null` coercion analysis),
so it is `none` here.  The `isFinite` guards are vacuous over `ℚ`. -/
def vividLightInverseDodgeBranch (s t : ℚ) : Option ℚ :=
  match (if t ≠ 0 then some (1 - s / (2 * t))
         else if s = 0 then some (3/4) else none : Option ℚ) with
  | some y => if 1/2 ≤ y then some y else none
  | none => none

def vividLightInverse (s t : ℚ) : Option ℚ :=
  match (if t ≠ 1 then some ((1 - s) / (2 * (1 - t)))
         else if s = 1 then some (1/4) else none : Option ℚ) with
  | some x => if x < 1/2 then some x else vividLightInverseDodgeBranch s t
  | none => vividLightInverseDodgeBranch s t

def linearLightInverse (s t : ℚ) : Option ℚ := some ((t - s + 1) / 2)

/-- Tail of the Pin Light inverse (high branch); the final source line again
returns `null` in every reachable state. -/
def pinLightInverseHighBranch (s t : ℚ) : Option ℚ :=
  match (if s < t then some ((t + 1) / 2)
         else if t = s then some ((1/2 + (s + 1) / 2) / 2) else none : Option ℚ) with
  | some y => if 1/2 ≤ y then some y else none
  | none => none

def pinLightInverse (s t : ℚ) : Option ℚ :=
  match (if t < s then some (t / 2)
         else if t = s then
           (if s = 1 then some (499/1000) else some ((s/2 + 1/2) / 2))
         else none : Option ℚ) with
  | some x => if x < 1/2 then some x else pinLightInverseHighBranch s t
  | none => pinLightInverseHighBranch s t

def hardMixInverse (_s t : ℚ) : Option ℚ :=
  if t = 0 then some (1/4) else if t = 1 then some (3/4) else none

/-- A catalog entry: its name and its analytic inverse-for-blend. -/
structure Mode where
  name : String
  inverse : ℚ → ℚ → Option ℚ

/-- The 17-entry catalog `blendModes`, in source order. -/
def blendModesList : List Mode :=
  [⟨"Normal", normalInverse⟩,
   ⟨"Multiply", multiplyInverse⟩,
   ⟨"Screen", screenInverse⟩,
   ⟨"Subtract", subtractInverse⟩,
   ⟨"Divide", divideInverse⟩,
   ⟨"Difference", differenceInverse⟩,
   ⟨"Overlay", overlayInverse⟩,
   ⟨"Hard Light", hardLightInverse⟩,
   ⟨"Soft Light (Pegtop)", softLightInverse⟩,
   ⟨"Color Burn", colorBurnInverse⟩,
   ⟨"Linear Burn", linearBurnInverse⟩,
   ⟨"Color Dodge", colorDodgeInverse⟩,
   ⟨"Linear Dodge (Add)", linearDodgeInverse⟩,
   ⟨"Vivid Light", vividLightInverse⟩,
   ⟨"Linear Light", linearLightInverse⟩,
   ⟨"Pin Light", pinLightInverse⟩,
   ⟨"Hard Mix", hardMixInverse⟩]

theorem applyBlendChannel_normal (s b : ℚ) : applyBlendChannel "Normal" s b = b := rfl

theorem applyBlendChannel_multiply (s b : ℚ) :
    applyBlendChannel "Multiply" s b = s * b := rfl

theorem applyBlendChannel_screen (s b : ℚ) :
    applyBlendChannel "Screen" s b = 1 - (1 - s) * (1 - b) := rfl

theorem applyBlendChannel_linearDodge (s b : ℚ) :
    applyBlendChannel "Linear Dodge (Add)" s b = clamp (s + b) 0 1 := rfl

theorem applyBlendChannel_subtract (s b : ℚ) :
    applyBlendChannel "Subtract" s b = clamp (s - b) 0 1 := rfl

theorem applyBlendChannel_divide (s b : ℚ) :
    applyBlendChannel "Divide" s b = (if b = 0 then (if s = 0 then 0 else 1) else s / b) := rfl

theorem applyBlendChannel_difference (s b : ℚ) :
    applyBlendChannel "Difference" s b = |s - b| := rfl

theorem applyBlendChannel_overlay (s b : ℚ) :
    applyBlendChannel "Overlay" s b =
      (if s < 1/2 then 2 * s * b else 1 - 2 * (1 - s) * (1 - b)) := rfl

theorem applyBlendChannel_hardLight (s b : ℚ) :
    applyBlendChannel "Hard Light" s b =
      (if b < 1/2 then 2 * s * b else 1 - 2 * (1 - s) * (1 - b)) := rfl

theorem applyBlendChannel_softLight (s b : ℚ) :
    applyBlendChannel "Soft Light (Pegtop)" s b = (1 - 2 * b) * s * s + 2 * b * s := rfl

theorem applyBlendChannel_linearBurn (s b : ℚ) :
    applyBlendChannel "Linear Burn" s b = clamp (s + b - 1) 0 1 := rfl

theorem applyBlendChannel_linearLight (s b : ℚ) :
    applyBlendChannel "Linear Light" s b = clamp (s + 2 * b - 1) 0 1 := rfl

theorem applyBlendChannel_pinLight (s b : ℚ) :
    applyBlendChannel "Pin Light" s b =
      (if b < 1/2 then min s (2 * b) else max s (2 * b - 1)) := rfl

theorem applyBlendChannel_hardMix (s b : ℚ) :
    applyBlendChannel "Hard Mix" s b =
      (if vividLightChannel s b < 1/2 then 0 else 1) := rfl

/-- C2 (amended): for every blend mode in the catalog other than Divide,
Color Burn, Color Dodge and Vivid Light, and all source and blend channel
values `s, b ∈ [0,1]`, the forward per-channel evaluator
`applyBlendChannel(mode, s, b)` returns a value in `[0,1]`.  (For the four
excluded modes the raw evaluator can leave `[0,1]`; every caller —
`computeBlendError`, `applyBlendNorm` — clamps the returned value into
`[0,1]` before use.) -/
theorem C2_applyBlendChannel_unit_range :
    ∀ name ∈ blendModesList.map Mode.name,
      name ∉ (["Divide", "Color Burn", "Color Dodge", "Vivid Light"] : List String) →
      ∀ s b : ℚ, 0 ≤ s → s ≤ 1 → 0 ≤ b → b ≤ 1 →
        0 ≤ applyBlendChannel name s b ∧ applyBlendChannel name s b ≤ 1 := by
  intro name hname hnot s b hs0 hs1 hb0 hb1
  have h01 : (0:ℚ) ≤ 1 := by norm_num
  simp only [blendModesList, List.map_cons, List.map_nil] at hname
  fin_cases hname
  · rw [applyBlendChannel_normal]; exact ⟨hb0, hb1⟩
  · rw [applyBlendChannel_multiply]
    exact ⟨mul_nonneg hs0 hb0, by nlinarith⟩
  · rw [applyBlendChannel_screen]
    constructor <;> nlinarith
  · rw [applyBlendChannel_subtract]; exact clamp_mem _ h01
  · exact absurd (by decide) hnot
  · rw [applyBlendChannel_difference]
    exact ⟨abs_nonneg _, abs_le.mpr ⟨by linarith, by linarith⟩⟩
  · rw [applyBlendChannel_overlay]
    split_ifs with h
    · constructor <;> nlinarith
    · constructor <;> nlinarith
  · rw [applyBlendChannel_hardLight]
    split_ifs with h
    · constructor <;> nlinarith
    · constructor <;> nlinarith
  · rw [applyBlendChannel_softLight]
    constructor
    · nlinarith [mul_nonneg hb0 (mul_nonneg hs0 (by linarith : (0:ℚ) ≤ 1 - s)),
        sq_nonneg s]
    · nlinarith [sq_nonneg (1 - s),
        mul_nonneg (by linarith : (0:ℚ) ≤ 1 - b)
          (mul_nonneg hs0 (by linarith : (0:ℚ) ≤ 1 - s))]
  · exact absurd (by decide) hnot
  · rw [applyBlendChannel_linearBurn]; exact clamp_mem _ h01
  · exact absurd (by decide) hnot
  · rw [applyBlendChannel_linearDodge]; exact clamp_mem _ h01
  · exact absurd (by decide) hnot
  · rw [applyBlendChannel_linearLight]; exact clamp_mem _ h01
  · rw [applyBlendChannel_pinLight]
    split_ifs with h
    · exact ⟨le_min hs0 (by linarith), le_trans (min_le_left _ _) hs1⟩
    · exact ⟨le_trans hs0 (le_max_left _ _), max_le hs1 (by linarith)⟩
  · rw [applyBlendChannel_hardMix]
    split_ifs <;> norm_num

/-- C2 counterexample: the claim as stated is false — Divide is a catalog
mode, `s = 1` and `b = 1/2` both lie in `[0,1]`, yet
`applyBlendChannel("Divide", 1, 1/2) = 2 ∉ [0,1]` (the Divide, Color Burn,
Color Dodge and Vivid Light forward evaluators are not clamped inside
`applyBlendChannel`; the clamping happens at the call sites). -/
theorem C2_counterexample_divide :
    "Divide" ∈ blendModesList.map Mode.name ∧
    ((0:ℚ) ≤ 1 ∧ (1:ℚ) ≤ 1 ∧ (0:ℚ) ≤ 1/2 ∧ ((1:ℚ)/2) ≤ 1) ∧
    applyBlendChannel "Divide" 1 (1/2) = 2 ∧
    ¬(applyBlendChannel "Divide" 1 (1/2) ≤ 1) := by
  refine ⟨by decide, by norm_num, ?_, ?_⟩ <;>
    norm_num [applyBlendChannel_divide]

/-- Witness for C2: the amended range theorem applied at Multiply with
`s = b = 1/2`. -/
theorem C2_witness :
    0 ≤ applyBlendChannel "Multiply" (1/2) (1/2) ∧
      applyBlendChannel "Multiply" (1/2) (1/2) ≤ 1 :=
  C2_applyBlendChannel_unit_range "Multiply" (by decide) (by decide) (1/2) (1/2)
    (by norm_num) (by norm_num) (by norm_num) (by norm_num)

/-- C3: for Multiply, the forward evaluator `applyBlendChannel("Multiply",s,b)
= s·b` is monotonically non-decreasing in `b` for every fixed `s ∈ [0,1]`,
and whenever the catalog's Multiply inverse returns a non-null blend value
`b`, the forward evaluator applied to it reproduces the target `t` to within
`1e-4` (over exact rationals the round trip is in fact exact). -/
theorem C3_multiply_monotone_and_inverse :
    (∀ s b₁ b₂ : ℚ, 0 ≤ s → s ≤ 1 → 0 ≤ b₁ → b₁ ≤ b₂ → b₂ ≤ 1 →
        applyBlendChannel "Multiply" s b₁ ≤ applyBlendChannel "Multiply" s b₂) ∧
    (∀ s t b : ℚ, 0 ≤ s → s ≤ 1 → 0 ≤ t → t ≤ 1 → multiplyInverse s t = some b →
        |applyBlendChannel "Multiply" s b - t| ≤ 1/10000) := by
  constructor
  · intro s b₁ b₂ hs0 _ _ h12 _
    rw [applyBlendChannel_multiply, applyBlendChannel_multiply]
    exact mul_le_mul_of_nonneg_left h12 hs0
  · intro s t b _ _ _ _ hinv
    rw [applyBlendChannel_multiply]
    unfold multiplyInverse at hinv
    split_ifs at hinv with hs ht
    · obtain rfl : (1/2 : ℚ) = b := Option.some.inj hinv
      subst hs; subst ht
      norm_num
    · obtain rfl : t / s = b := Option.some.inj hinv
      have hcancel : s * (t / s) = t := by field_simp
      rw [hcancel, sub_self, abs_zero]
      norm_num

/-! ## Nelder-Mead machinery

The four Nelder-Mead implementations of the source (optimizer.js
`nelderMead`, hslTool.js `nelderMead3D`, the levels `nelderMead5D`,
multiStepOptimizer.js `nelderMeadMultiDim`) share one main loop verbatim, up
to the dimension count, the bounds clamp applied to generated vertices, and
the initial-simplex seeding.  The loop is embedded once (`nmStep`/`nmIter`)
and instantiated per implementation.  Alongside its result, the embedding
returns the trace of every point passed to the objective function, which is
what claim C1 quantifies over. -/

/-- A candidate parameter vector (a JS number array). -/
abbrev Pt := List ℚ

/-- Stable insert into a list sorted ascending by `key`: walk past strictly
smaller keys and insert before the first element whose key is not smaller.
Folding a list into sorted order from the right with this insert reproduces
JS's stable `Array.prototype.sort` under an ascending numeric comparator. -/
def insertByKey (key : α → ℚ) (a : α) : List α → List α
  | [] => [a]
  | b :: l => if key b < key a then b :: insertByKey key a l else a :: b :: l

/-- Stable ascending sort by `key` (insertion sort; agrees with any stable
sort, hence with the JS engine's). -/
def sortByKey (key : α → ℚ) : List α → List α
  | [] => []
  | a :: l => insertByKey key a (sortByKey key l)

theorem insertByKey_perm (key : α → ℚ) (a : α) (l : List α) :
    (insertByKey key a l).Perm (a :: l) := by
  induction l with
  | nil => simp [insertByKey]
  | cons b t ih =>
    simp only [insertByKey]
    split
    · exact ((ih.cons b).trans (List.Perm.swap a b t))
    · exact List.Perm.refl _

theorem sortByKey_perm (key : α → ℚ) (l : List α) : (sortByKey key l).Perm l := by
  induction l with
  | nil => simp [sortByKey]
  | cons a t ih => exact (insertByKey_perm key a (sortByKey key t)).trans (ih.cons a)

theorem mem_insertByKey {key : α → ℚ} {a x : α} {l : List α} :
    x ∈ insertByKey key a l ↔ x = a ∨ x ∈ l := by
  constructor
  · intro h
    have := (insertByKey_perm key a l).mem_iff.mp h
    simpa using this
  · intro h
    exact (insertByKey_perm key a l).mem_iff.mpr (by simpa using h)

theorem sortByKey_length (key : α → ℚ) (l : List α) :
    (sortByKey key l).length = l.length := (sortByKey_perm key l).length_eq

theorem sortByKey_mem {key : α → ℚ} {x : α} {l : List α} :
    x ∈ sortByKey key l ↔ x ∈ l := (sortByKey_perm key l).mem_iff

theorem sortByKey_sorted (key : α → ℚ) (l : List α) :
    (sortByKey key l).Pairwise (fun x y => key x ≤ key y) := by
  induction l with
  | nil => simp [sortByKey]
  | cons a t ih =>
    simp only [sortByKey]
    generalize hs : sortByKey key t = s at ih
    clear hs
    induction s with
    | nil => simp [insertByKey]
    | cons b u ihs =>
      rw [List.pairwise_cons] at ih
      simp only [insertByKey]
      split
      · rename_i hba
        refine List.pairwise_cons.mpr ⟨?_, ihs ih.2⟩
        intro y hy
        rcases mem_insertByKey.mp hy with rfl | hy
        · exact le_of_lt hba
        · exact ih.1 y hy
      · rename_i hba
        push_neg at hba
        refine List.pairwise_cons.mpr ⟨?_, List.pairwise_cons.mpr ih⟩
        intro y hy
        rcases List.mem_cons.mp hy with rfl | hy
        · exact hba
        · exact le_trans hba (ih.1 y hy)

/-- The sort-by-value step shared by the Nelder-Mead loops: stable ascending
sort of the (vertex, value) simplex by objective value.  In hslTool.js, the
levels optimizer and multiStepOptimizer.js, the sort is performed through an
index permutation of the value array and keeps each vertex paired with its
value; this function is that behavior.  optimizer.js `nelderMead`
additionally pre-sorts the vertex array in place with a comparator reading
the array being mutated, whose resulting vertex permutation is
implementation-defined, so theorems about that optimizer are stated over an
arbitrary sort step `resort` instead of this concrete one. -/
def sortPairsByVal : List (Pt × ℚ) → List (Pt × ℚ) := sortByKey Prod.snd

/-- Componentwise sum of the first vertices (the centroid accumulation loop),
over `n`-dimensional points. -/
def sumPts (n : ℕ) (pts : List Pt) : Pt :=
  pts.foldl (fun acc p => List.zipWith (· + ·) acc p) (List.replicate n 0)

/-- Centroid of the given vertices: accumulate and divide by `n`. -/
def centroidPts (n : ℕ) (pts : List Pt) : Pt :=
  (sumPts n pts).map (fun v => v / (n : ℚ))

/-- One iteration of the shared Nelder-Mead loop body: sort, convergence
test (`inr` = converged, returning the sorted simplex), then reflection
(α = 1), expansion (γ = 2), contraction (ρ = 1/2) or shrink (σ = 1/2), each
generated vertex passing through `clampP` before evaluation.  `inl` returns
the next simplex together with the points evaluated this iteration, in
evaluation order. -/
def nmStep (resort : List (Pt × ℚ) → List (Pt × ℚ)) (clampP : Pt → Pt)
    (f : Pt → ℚ) (tol : ℚ) (n : ℕ) (pairs : List (Pt × ℚ)) :
    (List (Pt × ℚ) × List Pt) ⊕ List (Pt × ℚ) :=
  let sorted := resort pairs
  let vbest := (sorted.getD 0 ([], 0)).2
  let worst := sorted.getD n ([], 0)
  if worst.2 - vbest < tol then .inr sorted else
  let firstn := sorted.take n
  let c := centroidPts n (firstn.map Prod.fst)
  let refl := clampP (List.zipWith (fun cj wj => cj + 1 * (cj - wj)) c worst.1)
  let rv := f refl
  if vbest ≤ rv ∧ rv < (sorted.getD (n - 1) ([], 0)).2 then
    .inl (firstn ++ [(refl, rv)], [refl])
  else if rv < vbest then
    let expd := clampP (List.zipWith (fun cj rj => cj + 2 * (rj - cj)) c refl)
    let ev := f expd
    .inl (firstn ++ [if ev < rv then (expd, ev) else (refl, rv)], [refl, expd])
  else
    let con := clampP (List.zipWith (fun cj wj => cj + (1/2) * (wj - cj)) c worst.1)
    let cv := f con
    if cv < worst.2 then .inl (firstn ++ [(con, cv)], [refl, con])
    else
      let s0 := sorted.getD 0 ([], 0)
      let shrunk := (sorted.drop 1).map (fun pr =>
        let p := clampP (List.zipWith (fun aj bj => aj + (1/2) * (bj - aj)) s0.1 pr.1)
        (p, f p))
      .inl (s0 :: shrunk, refl :: con :: shrunk.map Prod.fst)

/-- The shared Nelder-Mead loop: run `nmStep` until convergence or until the
iteration budget is exhausted.  Returns the final simplex and the trace of
all points evaluated during the loop. -/
def nmIter (resort : List (Pt × ℚ) → List (Pt × ℚ)) (clampP : Pt → Pt)
    (f : Pt → ℚ) (tol : ℚ) (n : ℕ) :
    ℕ → List (Pt × ℚ) → List (Pt × ℚ) × List Pt
  | 0, pairs => (pairs, [])
  | fuel + 1, pairs =>
    match nmStep resort clampP f tol n pairs with
    | .inr final => (final, [])
    | .inl (next, tr) =>
      let rest := nmIter resort clampP f tol n fuel next
      (rest.1, tr ++ rest.2)
termination_by structural fuel _pairs => fuel

/-- `values.indexOf(Math.min(...values))` followed by reading that vertex:
the first (vertex, value) pair attaining the minimal value.  The default for
the empty list is never reached (simplices are non-empty). -/
def argminPair (l : List (Pt × ℚ)) : Pt × ℚ :=
  match l with
  | [] => ([], 0)
  | h :: t =>
    let m := t.foldl (fun acc pr => min acc pr.2) h.2
    ((h :: t).find? (fun pr => decide (pr.2 = m))).getD h

theorem argminPair_mem {l : List (Pt × ℚ)} (h : l ≠ []) : argminPair l ∈ l := by
  match l with
  | a :: t =>
    simp only [argminPair]
    cases hf : (a :: t).find? (fun pr =>
        decide (pr.2 = t.foldl (fun acc pr => min acc pr.2) a.2)) with
    | none => simp [List.mem_cons]
    | some pr =>
      simp only [Option.getD_some]
      exact List.mem_of_find?_eq_some hf

/-- Every point evaluated during the loop iterations is an image of the
bounds clamp, whatever the sort step does. -/
theorem nmStep_trace_clamped {resort : List (Pt × ℚ) → List (Pt × ℚ)}
    {clampP : Pt → Pt} {f : Pt → ℚ} {tol : ℚ} {n : ℕ} {pairs : List (Pt × ℚ)}
    {next : List (Pt × ℚ)} {tr : List Pt}
    (h : nmStep resort clampP f tol n pairs = .inl (next, tr)) :
    ∀ p ∈ tr, ∃ x, p = clampP x := by
  simp only [nmStep] at h
  split_ifs at h
  · rw [Sum.inl.injEq, Prod.mk.injEq] at h
    obtain ⟨hx, hy⟩ := h
    subst hy
    intro p hp
    rcases List.mem_singleton.mp hp with rfl
    exact ⟨_, rfl⟩
  · rw [Sum.inl.injEq, Prod.mk.injEq] at h
    obtain ⟨hx, hy⟩ := h
    subst hy
    intro p hp
    rcases List.mem_cons.mp hp with rfl | hp
    · exact ⟨_, rfl⟩
    · rcases List.mem_singleton.mp hp with rfl
      exact ⟨_, rfl⟩
  · rw [Sum.inl.injEq, Prod.mk.injEq] at h
    obtain ⟨hx, hy⟩ := h
    subst hy
    intro p hp
    rcases List.mem_cons.mp hp with rfl | hp
    · exact ⟨_, rfl⟩
    · rcases List.mem_singleton.mp hp with rfl
      exact ⟨_, rfl⟩
  · rw [Sum.inl.injEq, Prod.mk.injEq] at h
    obtain ⟨hx, hy⟩ := h
    subst hy
    intro p hp
    rcases List.mem_cons.mp hp with rfl | hp
    · exact ⟨_, rfl⟩
    · rcases List.mem_singleton.mp hp with rfl
      exact ⟨_, rfl⟩
  · rw [Sum.inl.injEq, Prod.mk.injEq] at h
    obtain ⟨hx, hy⟩ := h
    subst hy
    intro p hp
    rcases List.mem_cons.mp hp with rfl | hp
    · exact ⟨_, rfl⟩
    rcases List.mem_cons.mp hp with rfl | hp
    · exact ⟨_, rfl⟩
    rw [List.map_map] at hp
    rcases List.mem_map.mp hp with ⟨pr, _, hpr⟩
    exact ⟨_, hpr.symm⟩

/-- Trace version over the whole loop. -/
theorem nmIter_trace_clamped {resort : List (Pt × ℚ) → List (Pt × ℚ)}
    {clampP : Pt → Pt} {f : Pt → ℚ} {tol : ℚ} {n : ℕ} :
    ∀ (fuel : ℕ) (pairs : List (Pt × ℚ)),
      ∀ p ∈ (nmIter resort clampP f tol n fuel pairs).2, ∃ x, p = clampP x := by
  intro fuel
  induction fuel with
  | zero => intro pairs p hp; simp [nmIter] at hp
  | succ k ih =>
    intro pairs p hp
    rw [nmIter] at hp
    cases hstep : nmStep resort clampP f tol n pairs with
    | inr final => rw [hstep] at hp; simp at hp
    | inl pr =>
      rw [hstep] at hp
      obtain ⟨nx, tr⟩ := pr
      simp only at hp
      rcases List.mem_append.mp hp with hp | hp
      · exact nmStep_trace_clamped hstep p hp
      · exact ih nx p hp

/-- One-step simplex invariant (continue case): if the sort step only reuses
vertices and preserves the length, every incoming vertex satisfies `Q`, `Q`
is preserved by the clamp, and the simplex is non-empty, then every vertex of
the next simplex satisfies `Q` and the next simplex is non-empty. -/
theorem nmStep_inl_inv {Q : Pt → Prop} {resort : List (Pt × ℚ) → List (Pt × ℚ)}
    (hre : ∀ (l : List (Pt × ℚ)) (pr : Pt × ℚ), pr ∈ resort l → pr ∈ l)
    (hlen : ∀ l : List (Pt × ℚ), (resort l).length = l.length)
    {clampP : Pt → Pt} (hQc : ∀ x, Q (clampP x))
    {f : Pt → ℚ} {tol : ℚ} {n : ℕ} {pairs next : List (Pt × ℚ)} {tr : List Pt}
    (hne : pairs ≠ []) (hQ : ∀ pr ∈ pairs, Q pr.1)
    (h : nmStep resort clampP f tol n pairs = .inl (next, tr)) :
    (∀ pr ∈ next, Q pr.1) ∧ next ≠ [] := by
  have hsQ : ∀ pr ∈ resort pairs, Q pr.1 := fun pr hpr => hQ pr (hre _ pr hpr)
  have hsne : resort pairs ≠ [] := by
    intro hc
    apply hne
    have hl := hlen pairs
    rw [hc] at hl
    exact List.eq_nil_of_length_eq_zero hl.symm
  simp only [nmStep] at h
  split_ifs at h
  case _ =>
    rw [Sum.inl.injEq, Prod.mk.injEq] at h
    obtain ⟨hx, _⟩ := h
    subst hx
    refine ⟨?_, by simp⟩
    intro pr hpr
    rcases List.mem_append.mp hpr with hpr | hpr
    · exact hsQ pr (List.mem_of_mem_take hpr)
    · rcases List.mem_singleton.mp hpr with rfl
      exact hQc _
  case _ =>
    rw [Sum.inl.injEq, Prod.mk.injEq] at h
    obtain ⟨hx, _⟩ := h
    subst hx
    refine ⟨?_, by simp⟩
    intro pr hpr
    rcases List.mem_append.mp hpr with hpr | hpr
    · exact hsQ pr (List.mem_of_mem_take hpr)
    · rcases List.mem_singleton.mp hpr with rfl
      exact hQc _
  case _ =>
    rw [Sum.inl.injEq, Prod.mk.injEq] at h
    obtain ⟨hx, _⟩ := h
    subst hx
    refine ⟨?_, by simp⟩
    intro pr hpr
    rcases List.mem_append.mp hpr with hpr | hpr
    · exact hsQ pr (List.mem_of_mem_take hpr)
    · rcases List.mem_singleton.mp hpr with rfl
      exact hQc _
  case _ =>
    rw [Sum.inl.injEq, Prod.mk.injEq] at h
    obtain ⟨hx, _⟩ := h
    subst hx
    refine ⟨?_, by simp⟩
    intro pr hpr
    rcases List.mem_append.mp hpr with hpr | hpr
    · exact hsQ pr (List.mem_of_mem_take hpr)
    · rcases List.mem_singleton.mp hpr with rfl
      exact hQc _
  case _ =>
    rw [Sum.inl.injEq, Prod.mk.injEq] at h
    obtain ⟨hx, _⟩ := h
    subst hx
    refine ⟨?_, by simp⟩
    intro pr hpr
    rcases List.mem_cons.mp hpr with rfl | hpr
    · cases hsort : resort pairs with
      | nil => exact absurd hsort hsne
      | cons a t =>
        simp only [List.getD_cons_zero]
        exact hsQ a (by rw [hsort]; exact List.mem_cons_self a t)
    · rcases List.mem_map.mp hpr with ⟨x, _, rfl⟩
      exact hQc _

/-- One-step simplex invariant (converged case). -/
theorem nmStep_inr_inv {Q : Pt → Prop} {resort : List (Pt × ℚ) → List (Pt × ℚ)}
    (hre : ∀ (l : List (Pt × ℚ)) (pr : Pt × ℚ), pr ∈ resort l → pr ∈ l)
    (hlen : ∀ l : List (Pt × ℚ), (resort l).length = l.length)
    {clampP : Pt → Pt} {f : Pt → ℚ} {tol : ℚ} {n : ℕ}
    {pairs fin : List (Pt × ℚ)}
    (hne : pairs ≠ []) (hQ : ∀ pr ∈ pairs, Q pr.1)
    (h : nmStep resort clampP f tol n pairs = .inr fin) :
    (∀ pr ∈ fin, Q pr.1) ∧ fin ≠ [] := by
  have hsQ : ∀ pr ∈ resort pairs, Q pr.1 := fun pr hpr => hQ pr (hre _ pr hpr)
  have hsne : resort pairs ≠ [] := by
    intro hc
    apply hne
    have hl := hlen pairs
    rw [hc] at hl
    exact List.eq_nil_of_length_eq_zero hl.symm
  simp only [nmStep] at h
  split_ifs at h
  rw [Sum.inr.injEq] at h
  subst h
  exact ⟨hsQ, hsne⟩

/-- Simplex invariant over the whole loop: every vertex of the final simplex
satisfies `Q`, and the final simplex is non-empty. -/
theorem nmIter_inv {Q : Pt → Prop} {resort : List (Pt × ℚ) → List (Pt × ℚ)}
    (hre : ∀ (l : List (Pt × ℚ)) (pr : Pt × ℚ), pr ∈ resort l → pr ∈ l)
    (hlen : ∀ l : List (Pt × ℚ), (resort l).length = l.length)
    {clampP : Pt → Pt} (hQc : ∀ x, Q (clampP x)) {f : Pt → ℚ} {tol : ℚ} {n : ℕ} :
    ∀ (fuel : ℕ) (pairs : List (Pt × ℚ)), pairs ≠ [] → (∀ pr ∈ pairs, Q pr.1) →
      (∀ pr ∈ (nmIter resort clampP f tol n fuel pairs).1, Q pr.1) ∧
      (nmIter resort clampP f tol n fuel pairs).1 ≠ [] := by
  intro fuel
  induction fuel with
  | zero =>
    intro pairs hne hQ
    exact ⟨hQ, hne⟩
  | succ k ih =>
    intro pairs hne hQ
    rw [nmIter]
    cases hstep : nmStep resort clampP f tol n pairs with
    | inr fin =>
      exact nmStep_inr_inv hre hlen hne hQ hstep
    | inl pr =>
      obtain ⟨nx, tr⟩ := pr
      have hin := nmStep_inl_inv hre hlen hQc hne hQ hstep
      exact ih nx hin.2 hin.1

theorem sortPairsByVal_mem (l : List (Pt × ℚ)) (pr : Pt × ℚ)
    (h : pr ∈ sortPairsByVal l) : pr ∈ l := sortByKey_mem.mp h

theorem sortPairsByVal_length (l : List (Pt × ℚ)) :
    (sortPairsByVal l).length = l.length := sortByKey_length _ l

/-- Componentwise clamp into [0,1] (the inline clamps of optimizer.js). -/
def clamp01Pt (p : Pt) : Pt := p.map (fun v => clamp v 0 1)

/-- optimizer.js `nelderMead` (3 dimensions, bounds [0,1]³, step 0.1).  The
seed simplex evaluates the caller's `initial` point as given — it is NOT
clamped — plus three axis perturbations whose changed coordinate is clamped.
Returns the best vertex together with the trace of every point passed to the
objective (seed simplex first, in evaluation order).  The `resort` parameter
stands for the sort-by-value step; see `sortPairsByVal`. -/
def nelderMead3 (resort : List (Pt × ℚ) → List (Pt × ℚ)) (f : Pt → ℚ)
    (initial : Pt) (maxIterations : ℕ) (tolerance : ℚ) : Pt × List Pt :=
  let seeds := initial ::
    (List.range 3).map (fun i => initial.set i (clamp (initial.getD i 0 + 1/10) 0 1))
  let pairs0 := seeds.map (fun p => (p, f p))
  let res := nmIter resort clamp01Pt f tolerance 3 maxIterations pairs0
  ((argminPair res.1).1, seeds ++ res.2)

/-- Per-dimension clamp of multiStepOptimizer.js `nelderMeadMultiDim`
(`paramConfigs[idx] || { min: 0, max: 1 }` for coordinates beyond the
configured list). -/
def clampCfg : List (ℚ × ℚ) → Pt → Pt
  | _, [] => []
  | [], v :: vs => clamp v 0 1 :: clampCfg [] vs
  | c :: cs, v :: vs => clamp v c.1 c.2 :: clampCfg cs vs

/-- multiStepOptimizer.js `nelderMeadMultiDim`: dimension-generic, per-
dimension bounds, and — unlike `nelderMead3` — the seed vertex itself is
clamped (`clampParams(initial.slice())`).  Returns ((solution, value),
trace of every evaluated point). -/
def nelderMeadMulti (f : Pt → ℚ) (initial : Pt) (maxIterations : ℕ)
    (tolerance initialStep : ℚ) (cfgs : List (ℚ × ℚ)) : (Pt × ℚ) × List Pt :=
  let n := initial.length
  let seeds := clampCfg cfgs initial ::
    (List.range n).map (fun i =>
      clampCfg cfgs (initial.set i (initial.getD i 0 + initialStep)))
  let pairs0 := seeds.map (fun p => (p, f p))
  let res := nmIter sortPairsByVal (clampCfg cfgs) f tolerance n maxIterations pairs0
  (argminPair res.1, seeds ++ res.2)

/-- Membership in the per-dimension bounds boxes, defaulting to [0,1] beyond
the configured list exactly as `clampCfg` does. -/
def inCfg : List (ℚ × ℚ) → Pt → Prop
  | _, [] => True
  | [], v :: vs => ((0:ℚ) ≤ v ∧ v ≤ 1) ∧ inCfg [] vs
  | c :: cs, v :: vs => (c.1 ≤ v ∧ v ≤ c.2) ∧ inCfg cs vs

theorem inCfg_clampCfg : ∀ (cfgs : List (ℚ × ℚ)) (x : Pt),
    (∀ c ∈ cfgs, c.1 ≤ c.2) → inCfg cfgs (clampCfg cfgs x)
  | cfgs, [], _ => by cases cfgs <;> simp [clampCfg, inCfg]
  | [], v :: vs, h => by
      simp only [clampCfg, inCfg]
      exact ⟨clamp_mem v (by norm_num), inCfg_clampCfg [] vs h⟩
  | c :: cs, v :: vs, h => by
      simp only [clampCfg, inCfg]
      refine ⟨clamp_mem v (h c (List.mem_cons_self c cs)), inCfg_clampCfg cs vs ?_⟩
      intro c' hc'
      exact h c' (List.mem_cons_of_mem c hc')

/-- C1 (amended): in optimizer.js `nelderMead` and multiStepOptimizer.js
`nelderMeadMultiDim`, every reflected, expanded, contracted and shrunk vertex
and every axis-perturbed seed vertex is clamped into the per-dimension bounds
before the objective is evaluated on it.  In `nelderMeadMultiDim` the
unperturbed seed vertex is clamped too, so every evaluated point lies within
the configured bounds for every initial point (given non-empty bound
intervals); in the 3-dimensional `nelderMead`, the unperturbed seed vertex is
the caller's initial point evaluated as given, so every evaluated point lies
in [0,1]³ provided the initial point does (which holds at every call site).
The first part quantifies over the sort step `resort` and so covers the
implementation-defined behavior of that optimizer's in-place vertex sort. -/
theorem C1_bounds_on_every_evaluated_point :
    (∀ (resort : List (Pt × ℚ) → List (Pt × ℚ)) (f : Pt → ℚ) (initial : Pt)
        (maxIter : ℕ) (tol : ℚ),
        (∀ v ∈ initial, 0 ≤ v ∧ v ≤ 1) →
        ∀ p ∈ (nelderMead3 resort f initial maxIter tol).2,
          ∀ v ∈ p, 0 ≤ v ∧ v ≤ 1) ∧
    (∀ (f : Pt → ℚ) (initial : Pt) (maxIter : ℕ) (tol step : ℚ)
        (cfgs : List (ℚ × ℚ)),
        (∀ c ∈ cfgs, c.1 ≤ c.2) →
        ∀ p ∈ (nelderMeadMulti f initial maxIter tol step cfgs).2, inCfg cfgs p) := by
  constructor
  · intro resort f initial maxIter tol hinit p hp v hv
    simp only [nelderMead3] at hp
    rcases List.mem_append.mp hp with hp | hp
    · rcases List.mem_cons.mp hp with rfl | hp
      · exact hinit v hv
      · rcases List.mem_map.mp hp with ⟨i, _, rfl⟩
        rcases List.mem_or_eq_of_mem_set hv with hv | rfl
        · exact hinit v hv
        · exact clamp_mem _ (by norm_num)
    · rcases nmIter_trace_clamped _ _ p hp with ⟨x, rfl⟩
      rcases List.mem_map.mp hv with ⟨w, _, rfl⟩
      exact clamp_mem _ (by norm_num)
  · intro f initial maxIter tol step cfgs hcfg p hp
    simp only [nelderMeadMulti] at hp
    rcases List.mem_append.mp hp with hp | hp
    · rcases List.mem_cons.mp hp with rfl | hp
      · exact inCfg_clampCfg cfgs initial hcfg
      · rcases List.mem_map.mp hp with ⟨i, _, rfl⟩
        exact inCfg_clampCfg cfgs _ hcfg
    · rcases nmIter_trace_clamped _ _ p hp with ⟨x, rfl⟩
      exact inCfg_clampCfg cfgs x hcfg

/-- C1 counterexample: the claim as stated is false for optimizer.js
`nelderMead` — for the out-of-bounds initial point [2, 1/2, 1/2] the
objective is evaluated at that very point (the unclamped seed vertex of the
simplex), which lies outside the [0,1] bounds. -/
theorem C1_counterexample_unclamped_seed :
    [2, 1/2, 1/2] ∈
      (nelderMead3 sortPairsByVal (fun _ => 0) [2, 1/2, 1/2] 300 (1/10000000)).2 ∧
    ¬(∀ v ∈ ([2, 1/2, 1/2] : Pt), 0 ≤ v ∧ v ≤ 1) := by
  constructor
  · simp only [nelderMead3]
    exact List.mem_append_left _ (List.mem_cons_self _ _)
  · intro hall
    have h2 := (hall 2 (by simp)).2
    norm_num at h2

/-- Witness for C1: the amended theorem applied to a concrete in-bounds
initial point for `nelderMead` and to concrete bounds for
`nelderMeadMultiDim`. -/
theorem C1_witness :
    ((∀ v ∈ ([1/2, 1/2, 1/2] : Pt), 0 ≤ v ∧ v ≤ 1) ∧
      ∀ p ∈ (nelderMead3 sortPairsByVal (fun _ => 0) [1/2, 1/2, 1/2] 300
          (1/10000000)).2, ∀ v ∈ p, 0 ≤ v ∧ v ≤ 1) ∧
    ((∀ c ∈ ([(0, 1), (0, 1)] : List (ℚ × ℚ)), c.1 ≤ c.2) ∧
      ∀ p ∈ (nelderMeadMulti (fun _ => 0) [1/2, 1/2] 400 (1/100000000) (1/4)
          [(0, 1), (0, 1)]).2, inCfg [(0, 1), (0, 1)] p) :=
  ⟨⟨by norm_num, C1_bounds_on_every_evaluated_point.1 _ _ _ _ _ (by norm_num)⟩,
   ⟨by norm_num, C1_bounds_on_every_evaluated_point.2 _ _ _ _ _ _ (by norm_num)⟩⟩

/-- Witness for C3: monotonicity at `s = 1/2`, `b` from `0` to `1`, and the
inverse round trip at `s = 1/2`, `t = 1/4` (where the inverse returns
`b = 1/2`). -/
theorem C3_witness :
    applyBlendChannel "Multiply" (1/2) 0 ≤ applyBlendChannel "Multiply" (1/2) 1 ∧
    |applyBlendChannel "Multiply" (1/2) (1/2) - 1/4| ≤ 1/10000 :=
  ⟨C3_multiply_monotone_and_inverse.1 (1/2) 0 1 (by norm_num) (by norm_num)
      (by norm_num) (by norm_num) (by norm_num),
   C3_multiply_monotone_and_inverse.2 (1/2) (1/4) (1/2) (by norm_num) (by norm_num)
      (by norm_num) (by norm_num) (by norm_num [multiplyInverse])⟩

/-! ## Pairs and the error-statistics accumulation -/

/-- A source/target color pair as supplied by the UI (`{source, target,
weight}`); absent fields are `none`. -/
structure ColorPair where
  source : Option String
  target : Option String
  weight : Option ℚ
deriving DecidableEq

/-- JS truthiness of an optional string field: present and non-empty. -/
def truthy : Option String → Bool
  | none => false
  | some s => decide (s ≠ "")

/-- The validity filter `p.source && p.target` used by every optimizer entry
point. -/
def pairValid (p : ColorPair) : Bool := truthy p.source && truthy p.target

/-- `pair.weight !== undefined ? pair.weight : 1`. -/
def weightOf (p : ColorPair) : ℚ := p.weight.getD 1

/-- One per-pair diagnostic row (`perPairResults` entry). -/
structure PerPair where
  source : Option String
  target : Option String
  weight : ℚ
  achieved : String
  achievedRgb : List ℚ
  error : ℚ
deriving DecidableEq

/-- The combined error statistics returned by `computeBlendError`,
`computeHslError` and `computeLevelsError`. -/
structure ErrStats where
  totalError : ℚ
  avgError : ℚ
  maxError : ℚ
  perPairResults : List PerPair
deriving DecidableEq

/-- Shared accumulation skeleton of the three error computers: walk the
pairs, skip any whose source or target hex fails to parse, compute the
achieved 0–255 color with `achieve` from the parsed source, take its
`dE`-distance to the target, and accumulate (perPairResults, totalError,
totalWeight, maxError).  The source accumulates with `+=`/`Math.max` from
the left; the right-recursion below produces the same rational values and
the same list. -/
def errGo (dE : List ℚ → List ℚ → ℚ) (achieve : List ℚ → List ℚ) :
    List ColorPair → List PerPair × ℚ × ℚ × ℚ
  | [] => ([], 0, 0, 0)
  | p :: rest =>
    match hexToRgbO p.source, hexToRgbO p.target with
    | some sRgb, some tRgb =>
      let w := weightOf p
      let achievedRgb := achieve sRgb
      let achievedHex := rgbToHex achievedRgb
      let err := dE tRgb achievedRgb
      let acc := errGo dE achieve rest
      (⟨p.source, p.target, w, achievedHex, achievedRgb, err⟩ :: acc.1,
        err * w + acc.2.1, w + acc.2.2.1, max err acc.2.2.2)
    | _, _ => errGo dE achieve rest

/-- Package the accumulator into the returned statistics object
(`avgError = totalWeight > 0 ? totalError / totalWeight : 0`). -/
def mkStats (r : List PerPair × ℚ × ℚ × ℚ) : ErrStats :=
  ⟨r.2.1, if 0 < r.2.2.1 then r.2.1 / r.2.2.1 else 0, r.2.2.2, r.1⟩

/-- The quality-badge thresholds, identical in optimizer.js, hslTool.js and
the levels optimizer (the if-chain is written once here). -/
def qualityOf (avg : ℚ) : String :=
  if avg < 1 then "exact" else if avg < 3 then "good"
  else if avg < 6 then "approx" else "poor"

/-- optimizer.js `computeBlendError`: apply the mode per channel to the
normalized source and candidate blend, clamp each channel into [0,1], round
back to 0–255, and measure the `dE` distance to the target. -/
def computeBlendError (dE : List ℚ → List ℚ → ℚ) (modeName : String)
    (pairs : List ColorPair) (blendNorm : Pt) : ErrStats :=
  mkStats (errGo dE (fun sRgb =>
    let sNorm := sRgb.map (· / 255)
    let achievedNorm :=
      [applyBlendChannel modeName (sNorm.getD 0 0) (blendNorm.getD 0 0),
       applyBlendChannel modeName (sNorm.getD 1 0) (blendNorm.getD 1 0),
       applyBlendChannel modeName (sNorm.getD 2 0) (blendNorm.getD 2 0)].map
        (fun c => clamp c 0 1)
    achievedNorm.map (fun c => ((jsRound (c * 255) : ℤ) : ℚ))) pairs)

/-! ## The Levels optimizer

`applyLevelsAdjustment` is not part of the repository sources available here
(only its callers are), and the Levels claims do not depend on its values, so
the error computer and optimizer are parametrised by an abstract
`applyLvl : List ℚ → LevelsParams → List ℚ` standing for it; every theorem
holds for every such forward function. -/

/-- The five Levels parameters. -/
structure LevelsParams where
  inputBlack : ℚ
  inputWhite : ℚ
  inputGamma : ℚ
  outputBlack : ℚ
  outputWhite : ℚ
deriving DecidableEq

/-- The levels `computeLevelsError`. -/
def computeLevelsError (dE : List ℚ → List ℚ → ℚ)
    (applyLvl : List ℚ → LevelsParams → List ℚ)
    (pairs : List ColorPair) (params : LevelsParams) : ErrStats :=
  mkStats (errGo dE (fun sRgb => applyLvl sRgb params) pairs)

/-- `clampParams` of the levels `nelderMead5D`: black to [0,253], white at
least black + 2 and at most 255, gamma to [0.1, 9.99], outputs to [0,255]. -/
def clampLvl (p : Pt) : Pt :=
  let ib := max 0 (min 253 (p.getD 0 0))
  let iw := max (ib + 2) (min 255 (p.getD 1 0))
  let g := max (1/10) (min (999/100) (p.getD 2 0))
  let ob := max 0 (min 255 (p.getD 3 0))
  let ow := max 0 (min 255 (p.getD 4 0))
  [ib, iw, g, ob, ow]

/-- The per-parameter simplex construction steps of `nelderMead5D`. -/
def lvlSteps : Pt := [10, -10, 1/5, 10, -10]

/-- The levels `nelderMead5D`: every vertex, including the seed, passes
through `clampLvl`.  Returns (solution, value). -/
def nelderMead5L (f : Pt → ℚ) (initial : Pt) (maxIterations : ℕ)
    (tolerance : ℚ) : Pt × ℚ :=
  let seeds := clampLvl initial ::
    (List.range 5).map (fun i =>
      clampLvl (initial.set i (initial.getD i 0 + lvlSteps.getD i 0)))
  let pairs0 := seeds.map (fun p => (p, f p))
  let res := nmIter sortPairsByVal clampLvl f tolerance 5 maxIterations pairs0
  argminPair res.1

/-- The ordering/range invariant established by `clampLvl`. -/
def lvlInv (p : Pt) : Prop :=
  ∃ ib iw g ob ow : ℚ, p = [ib, iw, g, ob, ow] ∧
    0 ≤ ib ∧ ib ≤ 253 ∧ ib + 2 ≤ iw ∧ iw ≤ 255 ∧ 1/10 ≤ g ∧ g ≤ 999/100

theorem lvlInv_clampLvl (x : Pt) : lvlInv (clampLvl x) := by
  refine ⟨_, _, _, _, _, rfl, ?_, ?_, ?_, ?_, ?_, ?_⟩
  · exact le_max_left _ _
  · exact max_le (by norm_num) (min_le_left _ _)
  · exact le_max_left _ _
  · refine max_le ?_ (min_le_left _ _)
    have := max_le (le_refl (253 : ℚ)) (min_le_left 253 (x.getD 0 0))
    have h1 : max 0 (min 253 (x.getD 0 0)) ≤ 253 :=
      max_le (by norm_num) (min_le_left _ _)
    linarith
  · exact le_max_left _ _
  · exact max_le (by norm_num) (min_le_left _ _)

theorem nelderMead5L_inv (f : Pt → ℚ) (initial : Pt) (maxIterations : ℕ)
    (tolerance : ℚ) : lvlInv (nelderMead5L f initial maxIterations tolerance).1 := by
  have hQ : ∀ pr ∈ (clampLvl initial ::
      (List.range 5).map (fun i =>
        clampLvl (initial.set i (initial.getD i 0 + lvlSteps.getD i 0)))).map
        (fun p => (p, f p)), lvlInv pr.1 := by
    intro pr hpr
    rcases List.mem_map.mp hpr with ⟨p, hp, rfl⟩
    rcases List.mem_cons.mp hp with rfl | hp
    · exact lvlInv_clampLvl _
    · rcases List.mem_map.mp hp with ⟨i, _, rfl⟩
      exact lvlInv_clampLvl _
  have hrun := @nmIter_inv lvlInv sortPairsByVal sortPairsByVal_mem
    sortPairsByVal_length clampLvl lvlInv_clampLvl f tolerance 5 maxIterations
    ((clampLvl initial :: (List.range 5).map (fun i =>
        clampLvl (initial.set i (initial.getD i 0 + lvlSteps.getD i 0)))).map
      (fun p => (p, f p)))
    (by simp) hQ
  simp only [nelderMead5L]
  exact hrun.1 _ (argminPair_mem hrun.2)

/-- One restart of the levels optimizer (`nelderMead5D(objective, start,
{maxIterations: 500})`, tolerance defaulting to 1e-6), folded into the
running best (`result.value < bestValue`, with `bestValue` starting at
`Infinity`, modelled by `none`). -/
def lvlRestartStep (objective : Pt → ℚ) (acc : Option (Pt × ℚ)) (start : Pt) :
    Option (Pt × ℚ) :=
  let r := nelderMead5L objective start 500 (1/1000000)
  match acc with
  | none => some r
  | some b => if r.2 < b.2 then some r else some b

/-- The eight fixed starting points of `optimizeLevels`, in source order. -/
def levelsStartingPoints : List Pt :=
  [[0, 255, 1, 0, 255], [10, 245, 1, 0, 255], [0, 255, 4/5, 0, 255],
   [0, 255, 6/5, 0, 255], [0, 255, 1, 10, 245], [20, 235, 1, 0, 255],
   [0, 255, 1, 0, 200], [0, 255, 1, 50, 255]]

/-- The restart loop of `optimizeLevels`. -/
def optimizeLevelsCore (objective : Pt → ℚ) : Option (Pt × ℚ) :=
  levelsStartingPoints.foldl (lvlRestartStep objective) none

theorem lvlRestartStep_inv (objective : Pt → ℚ) (acc : Option (Pt × ℚ))
    (start : Pt) (hacc : ∀ b, acc = some b → lvlInv b.1) :
    ∀ b, lvlRestartStep objective acc start = some b → lvlInv b.1 := by
  intro b hb
  unfold lvlRestartStep at hb
  cases acc with
  | none =>
    obtain rfl := Option.some.inj hb
    exact nelderMead5L_inv _ _ _ _
  | some a =>
    simp only at hb
    split_ifs at hb
    · obtain rfl := Option.some.inj hb
      exact nelderMead5L_inv _ _ _ _
    · obtain rfl := Option.some.inj hb
      exact hacc a rfl

theorem optimizeLevelsCore_inv (objective : Pt → ℚ) :
    ∀ br, optimizeLevelsCore objective = some br → lvlInv br.1 := by
  unfold optimizeLevelsCore
  have key : ∀ (starts : List Pt) (acc : Option (Pt × ℚ)),
      (∀ b, acc = some b → lvlInv b.1) →
      ∀ br, starts.foldl (lvlRestartStep objective) acc = some br → lvlInv br.1 := by
    intro starts
    induction starts with
    | nil => intro acc hacc br h; exact hacc br h
    | cons s rest ih =>
      intro acc hacc br h
      rw [List.foldl_cons] at h
      exact ih _ (lvlRestartStep_inv objective acc s hacc) br h
  exact key levelsStartingPoints none (by intro b hb; cases hb)

/-- Rounding of the final Levels parameters (`Math.round` on the four level
values, gamma rounded to two decimals). -/
def levelsRound (sol : Pt) : LevelsParams :=
  ⟨((jsRound (sol.getD 0 0) : ℤ) : ℚ), ((jsRound (sol.getD 1 0) : ℤ) : ℚ),
    ((jsRound (sol.getD 2 0 * 100) : ℤ) : ℚ) / 100,
    ((jsRound (sol.getD 3 0) : ℤ) : ℚ), ((jsRound (sol.getD 4 0) : ℤ) : ℚ)⟩

/-- The result object of the Levels optimizer. -/
structure LevelsResult where
  params : LevelsParams
  totalError : ℚ
  avgError : ℚ
  maxError : ℚ
  perPairResults : List PerPair
  quality : String
deriving DecidableEq

/-- The levels objective: map the flat 5-vector onto the parameter record
and return the total weighted error. -/
def levelsObjective (dE : List ℚ → List ℚ → ℚ)
    (applyLvl : List ℚ → LevelsParams → List ℚ)
    (validPairs : List ColorPair) (p : Pt) : ℚ :=
  (computeLevelsError dE applyLvl validPairs
    ⟨p.getD 0 0, p.getD 1 0, p.getD 2 0, p.getD 3 0, p.getD 4 0⟩).totalError

/-- The levels `optimizeLevels`: filter to valid pairs (null when none),
run the eight restarts, round the best parameters, and report the final
statistics and quality badge. -/
def optimizeLevels (dE : List ℚ → List ℚ → ℚ)
    (applyLvl : List ℚ → LevelsParams → List ℚ)
    (pairs : List ColorPair) : Option LevelsResult :=
  let validPairs := pairs.filter pairValid
  if validPairs.isEmpty then none else
  match optimizeLevelsCore (levelsObjective dE applyLvl validPairs) with
  | none => none
  | some br =>
    let fp := levelsRound br.1
    let finalStats := computeLevelsError dE applyLvl validPairs fp
    some ⟨fp, finalStats.totalError, finalStats.avgError, finalStats.maxError,
      finalStats.perPairResults, qualityOf finalStats.avgError⟩

theorem levelsRound_inv {sol : Pt} (h : lvlInv sol) :
    (levelsRound sol).inputBlack + 2 ≤ (levelsRound sol).inputWhite ∧
    1/10 ≤ (levelsRound sol).inputGamma ∧
    (levelsRound sol).inputGamma ≤ 999/100 := by
  obtain ⟨ib, iw, g, ob, ow, rfl, hib0, hib253, hibw, hiw255, hg1, hg2⟩ := h
  simp only [levelsRound, List.getD_cons_zero, List.getD_cons_succ]
  refine ⟨?_, ?_, ?_⟩
  · have h1 : jsRound ib + 2 ≤ jsRound iw := by
      rw [← jsRound_add_two ib]
      exact jsRound_mono hibw
    exact_mod_cast h1
  · have h10 : (10:ℤ) ≤ jsRound (g * 100) := by
      have hm := jsRound_mono (by linarith : (10:ℚ) ≤ g * 100)
      rwa [show ((10:ℚ)) = ((10:ℤ):ℚ) by norm_num, jsRound_intCast] at hm
    have hq : (10:ℚ) ≤ (jsRound (g * 100) : ℚ) := by exact_mod_cast h10
    rw [le_div_iff₀ (by norm_num : (0:ℚ) < 100)]
    linarith
  · have h999 : jsRound (g * 100) ≤ (999:ℤ) := by
      have hm := jsRound_mono (by linarith : g * 100 ≤ (999:ℚ))
      rwa [show ((999:ℚ)) = ((999:ℤ):ℚ) by norm_num, jsRound_intCast] at hm
    have hq : (jsRound (g * 100) : ℚ) ≤ 999 := by exact_mod_cast h999
    rw [div_le_iff₀ (by norm_num : (0:ℚ) < 100)]
    linarith

/-! ## The single-blend optimizer (optimizer.js) -/

/-- Per-pair analytic inversion of `computeInitialGuess`: parse both colors,
invert each of the three channels with the mode's inverse, clamping each
result into [0,1]; the whole pair is discarded (`none`) if any channel
inverse is null.  (The source also discards non-finite inverses —
`!isFinite(b)` — a situation without counterpart over `ℚ`.)  Unparseable
pairs are skipped by the same `none`. -/
def pairInverse (inv : ℚ → ℚ → Option ℚ) (p : ColorPair) : Option Pt :=
  match hexToRgbO p.source, hexToRgbO p.target with
  | some sRgb, some tRgb =>
    let sNorm := sRgb.map (· / 255)
    let tNorm := tRgb.map (· / 255)
    (do
      let b0 ← inv (sNorm.getD 0 0) (tNorm.getD 0 0)
      let b1 ← inv (sNorm.getD 1 0) (tNorm.getD 1 0)
      let b2 ← inv (sNorm.getD 2 0) (tNorm.getD 2 0)
      pure [clamp b0 0 1, clamp b1 0 1, clamp b2 0 1])
  | _, _ => none

/-- The accumulation loop of `computeInitialGuess`: the (clamped inverse,
weight) list in pair order together with the accumulated total weight. -/
def giCollect (inv : ℚ → ℚ → Option ℚ) : List ColorPair → List (Pt × ℚ) × ℚ
  | [] => ([], 0)
  | p :: rest =>
    match pairInverse inv p with
    | none => giCollect inv rest
    | some pt =>
      let acc := giCollect inv rest
      ((pt, weightOf p) :: acc.1, weightOf p + acc.2)

/-- The unweighted `avg` accumulation (taken when `totalWeight <= 0`). -/
def giSumUnweighted : List (Pt × ℚ) → Pt
  | [] => [0, 0, 0]
  | x :: rest =>
    let acc := giSumUnweighted rest
    [x.1.getD 0 0 + acc.getD 0 0, x.1.getD 1 0 + acc.getD 1 0,
      x.1.getD 2 0 + acc.getD 2 0]

/-- The weighted `avg` accumulation. -/
def giSumWeighted : List (Pt × ℚ) → Pt
  | [] => [0, 0, 0]
  | x :: rest =>
    let acc := giSumWeighted rest
    [x.1.getD 0 0 * x.2 + acc.getD 0 0, x.1.getD 1 0 * x.2 + acc.getD 1 0,
      x.1.getD 2 0 * x.2 + acc.getD 2 0]

/-- optimizer.js `computeInitialGuess`: weighted average of the valid clamped
per-pair inverses; unweighted average when the accumulated weight is `<= 0`;
mid-gray fallback when no pair has a valid inverse. -/
def computeInitialGuess (inv : ℚ → ℚ → Option ℚ) (pairs : List ColorPair) : Pt :=
  let c := giCollect inv pairs
  if c.1 = [] then [1/2, 1/2, 1/2]
  else if c.2 ≤ 0 then
    let avg := giSumUnweighted c.1
    [avg.getD 0 0 / (c.1.length : ℚ), avg.getD 1 0 / (c.1.length : ℚ),
      avg.getD 2 0 / (c.1.length : ℚ)]
  else
    let avg := giSumWeighted c.1
    [avg.getD 0 0 / c.2, avg.getD 1 0 / c.2, avg.getD 2 0 / c.2]

/-- The valid (inverse, weight) contributions as described by claim C4. -/
def giValids (inv : ℚ → ℚ → Option ℚ) (pairs : List ColorPair) : List (Pt × ℚ) :=
  pairs.filterMap (fun p => (pairInverse inv p).map (fun pt => (pt, weightOf p)))

/-- The amended C4 claim, written from its words: for each pair with
parseable source and target, invert each channel analytically and clamp it
into [0,1]; discard a pair whose inversion fails on any channel; the guess is
the per-channel weighted average of the valid clamped inverses, falling back
to the unweighted average when the total weight of valid pairs is zero, and
to [0.5, 0.5, 0.5] when no pair has a valid inverse. -/
def initialGuessSpec (inv : ℚ → ℚ → Option ℚ) (pairs : List ColorPair) : Pt :=
  let valids := giValids inv pairs
  if valids = [] then [1/2, 1/2, 1/2]
  else if (valids.map Prod.snd).sum = 0 then
    [(valids.map (fun x => x.1.getD 0 0)).sum / (valids.length : ℚ),
     (valids.map (fun x => x.1.getD 1 0)).sum / (valids.length : ℚ),
     (valids.map (fun x => x.1.getD 2 0)).sum / (valids.length : ℚ)]
  else
    [(valids.map (fun x => x.1.getD 0 0 * x.2)).sum / (valids.map Prod.snd).sum,
     (valids.map (fun x => x.1.getD 1 0 * x.2)).sum / (valids.map Prod.snd).sum,
     (valids.map (fun x => x.1.getD 2 0 * x.2)).sum / (valids.map Prod.snd).sum]

/-- The claim C4 as literally stated, which averages the raw analytic
inverses without the per-channel clamp into [0,1]. -/
def pairInverseRaw (inv : ℚ → ℚ → Option ℚ) (p : ColorPair) : Option Pt :=
  match hexToRgbO p.source, hexToRgbO p.target with
  | some sRgb, some tRgb =>
    let sNorm := sRgb.map (· / 255)
    let tNorm := tRgb.map (· / 255)
    (do
      let b0 ← inv (sNorm.getD 0 0) (tNorm.getD 0 0)
      let b1 ← inv (sNorm.getD 1 0) (tNorm.getD 1 0)
      let b2 ← inv (sNorm.getD 2 0) (tNorm.getD 2 0)
      pure [b0, b1, b2])
  | _, _ => none

/-- The unclamped average described by the claim's literal wording. -/
def initialGuessSpecRaw (inv : ℚ → ℚ → Option ℚ) (pairs : List ColorPair) : Pt :=
  let valids := pairs.filterMap
    (fun p => (pairInverseRaw inv p).map (fun pt => (pt, weightOf p)))
  if valids = [] then [1/2, 1/2, 1/2]
  else if (valids.map Prod.snd).sum = 0 then
    [(valids.map (fun x => x.1.getD 0 0)).sum / (valids.length : ℚ),
     (valids.map (fun x => x.1.getD 1 0)).sum / (valids.length : ℚ),
     (valids.map (fun x => x.1.getD 2 0)).sum / (valids.length : ℚ)]
  else
    [(valids.map (fun x => x.1.getD 0 0 * x.2)).sum / (valids.map Prod.snd).sum,
     (valids.map (fun x => x.1.getD 1 0 * x.2)).sum / (valids.map Prod.snd).sum,
     (valids.map (fun x => x.1.getD 2 0 * x.2)).sum / (valids.map Prod.snd).sum]

theorem giCollect_eq (inv : ℚ → ℚ → Option ℚ) (pairs : List ColorPair) :
    giCollect inv pairs =
      (giValids inv pairs, ((giValids inv pairs).map Prod.snd).sum) := by
  induction pairs with
  | nil => simp [giCollect, giValids]
  | cons p rest ih =>
    simp only [giCollect, giValids, List.filterMap_cons]
    cases hpi : pairInverse inv p with
    | none => simpa [giValids] using ih
    | some pt =>
      simp only [Option.map_some, giValids] at ih ⊢
      rw [ih]
      simp

theorem giSumUnweighted_eq (l : List (Pt × ℚ)) (j : ℕ) (hj : j < 3) :
    (giSumUnweighted l).getD j 0 = (l.map (fun x => x.1.getD j 0)).sum := by
  induction l with
  | nil =>
    interval_cases j <;> simp [giSumUnweighted]
  | cons x rest ih =>
    simp only [giSumUnweighted, List.map_cons, List.sum_cons]
    interval_cases j <;> simp_all [giSumUnweighted]

theorem giSumWeighted_eq (l : List (Pt × ℚ)) (j : ℕ) (hj : j < 3) :
    (giSumWeighted l).getD j 0 = (l.map (fun x => x.1.getD j 0 * x.2)).sum := by
  induction l with
  | nil =>
    interval_cases j <;> simp [giSumWeighted]
  | cons x rest ih =>
    simp only [giSumWeighted, List.map_cons, List.sum_cons]
    interval_cases j <;> simp_all [giSumWeighted]

/-- C4 (amended): for every mode inverse and pair list with non-negative
weights, `computeInitialGuess` computes exactly the guess described by the
amended claim: per-channel weighted average of the valid, per-channel
clamped analytic inverses, with the unweighted-average fallback at total
weight zero and the mid-gray fallback when no pair has a valid inverse. -/
theorem C4_initial_guess_spec (inv : ℚ → ℚ → Option ℚ) (pairs : List ColorPair)
    (hw : ∀ p ∈ pairs, 0 ≤ weightOf p) :
    computeInitialGuess inv pairs = initialGuessSpec inv pairs := by
  have hwsum : 0 ≤ ((giValids inv pairs).map Prod.snd).sum := by
    apply List.sum_nonneg
    intro w hw'
    rcases List.mem_map.mp hw' with ⟨x, hx, rfl⟩
    rcases List.mem_filterMap.mp hx with ⟨p, hp, hpx⟩
    cases hpi : pairInverse inv p with
    | none => rw [hpi] at hpx; cases hpx
    | some pt =>
      rw [hpi] at hpx
      obtain rfl := Option.some.inj hpx
      exact hw p hp
  have hle : (((giValids inv pairs).map Prod.snd).sum ≤ 0) =
      (((giValids inv pairs).map Prod.snd).sum = 0) := by
    apply propext
    constructor
    · intro hx; linarith
    · intro hx; linarith
  simp only [computeInitialGuess, initialGuessSpec, giCollect_eq, hle]
  split_ifs with h1 h2
  · rfl
  · rw [giSumUnweighted_eq _ 0 (by norm_num), giSumUnweighted_eq _ 1 (by norm_num),
      giSumUnweighted_eq _ 2 (by norm_num)]
  · rw [giSumWeighted_eq _ 0 (by norm_num), giSumWeighted_eq _ 1 (by norm_num),
      giSumWeighted_eq _ 2 (by norm_num)]

/-- Witness for C4: the amended equality at the Multiply inverse and a
concrete one-pair list with default weight. -/
theorem C4_witness :
    (∀ p ∈ ([⟨some "#800000", some "#ff0000", none⟩] : List ColorPair),
        0 ≤ weightOf p) ∧
    computeInitialGuess multiplyInverse [⟨some "#800000", some "#ff0000", none⟩] =
      initialGuessSpec multiplyInverse [⟨some "#800000", some "#ff0000", none⟩] :=
  ⟨by
    intro p hp
    rcases List.mem_singleton.mp hp with rfl
    norm_num [weightOf],
   C4_initial_guess_spec multiplyInverse _ (by
    intro p hp
    rcases List.mem_singleton.mp hp with rfl
    norm_num [weightOf])⟩

/-- C4 counterexample: for the Multiply mode and the single pair
#800000 → #ff0000, the guess described by the claim's literal wording (the
weighted average of the raw analytic inverses, here 255/128 on the red
channel) differs from what `computeInitialGuess` returns: the source clamps
each channel inverse into [0,1] before averaging, giving 1 on the red
channel. -/
theorem C4_counterexample_clamped_inverse :
    computeInitialGuess multiplyInverse
        [⟨some "#800000", some "#ff0000", none⟩] = [1, 1/2, 1/2] ∧
    initialGuessSpecRaw multiplyInverse
        [⟨some "#800000", some "#ff0000", none⟩] = [255/128, 1/2, 1/2] ∧
    ([1, 1/2, 1/2] : Pt) ≠ [255/128, 1/2, 1/2] := by
  have hparse1 : hexToRgbO (some "#800000") =
      some [((128:ℕ):ℚ), ((0:ℕ):ℚ), ((0:ℕ):ℚ)] := rfl
  have hparse2 : hexToRgbO (some "#ff0000") =
      some [((255:ℕ):ℚ), ((0:ℕ):ℚ), ((0:ℕ):ℚ)] := rfl
  have hpi : pairInverse multiplyInverse ⟨some "#800000", some "#ff0000", none⟩ =
      some [1, 1/2, 1/2] := by
    rw [pairInverse, hparse1, hparse2]
    simp only [List.map_cons, List.map_nil, List.getD_cons_zero, List.getD_cons_succ]
    rw [show multiplyInverse (((128:ℕ):ℚ)/255) (((255:ℕ):ℚ)/255) = some (255/128) by
      rw [multiplyInverse, if_neg (by norm_num)]; norm_num]
    rw [show multiplyInverse (((0:ℕ):ℚ)/255) (((0:ℕ):ℚ)/255) = some (1/2) by
      rw [multiplyInverse, if_pos (by norm_num), if_pos (by norm_num)]]
    simp only [Option.bind_eq_bind, Option.some_bind, Option.some.injEq]
    norm_num [clamp]
  have hraw : pairInverseRaw multiplyInverse ⟨some "#800000", some "#ff0000", none⟩ =
      some [255/128, 1/2, 1/2] := by
    rw [pairInverseRaw, hparse1, hparse2]
    simp only [List.map_cons, List.map_nil, List.getD_cons_zero, List.getD_cons_succ]
    rw [show multiplyInverse (((128:ℕ):ℚ)/255) (((255:ℕ):ℚ)/255) = some (255/128) by
      rw [multiplyInverse, if_neg (by norm_num)]; norm_num]
    rw [show multiplyInverse (((0:ℕ):ℚ)/255) (((0:ℕ):ℚ)/255) = some (1/2) by
      rw [multiplyInverse, if_pos (by norm_num), if_pos (by norm_num)]]
    rfl
  refine ⟨?_, ?_, by norm_num⟩
  · rw [computeInitialGuess]
    rw [show giCollect multiplyInverse [⟨some "#800000", some "#ff0000", none⟩]
      = ([([1, 1/2, 1/2], 1)], 1) from ?_]
    · norm_num [giSumWeighted]
    · rw [giCollect, hpi]
      simp [giCollect, weightOf]
  · rw [initialGuessSpecRaw]
    simp only [List.filterMap_cons, List.filterMap_nil, hraw, Option.map_some]
    norm_num [weightOf, giValids]

/-- The restart loop always produces a solution: the starting-point list is
non-empty and the fold turns `none` into `some` at the first start. -/
theorem optimizeLevelsCore_isSome (objective : Pt → ℚ) :
    ∃ br, optimizeLevelsCore objective = some br := by
  unfold optimizeLevelsCore
  have key : ∀ (starts : List Pt) (acc : Option (Pt × ℚ)) (b : Pt × ℚ),
      acc = some b →
      ∃ b2, starts.foldl (lvlRestartStep objective) acc = some b2 := by
    intro starts
    induction starts with
    | nil => intro acc b hb; exact ⟨b, hb⟩
    | cons s rest ih =>
      intro acc b hb
      rw [List.foldl_cons]
      subst hb
      cases hstep : lvlRestartStep objective (some b) s with
      | none =>
        exfalso
        unfold lvlRestartStep at hstep
        simp only at hstep
        split_ifs at hstep
      | some b2 =>
        exact ih (some b2) b2 rfl
  cases hl : levelsStartingPoints with
  | nil => cases hl
  | cons s rest =>
    rw [List.foldl_cons]
    exact key rest _ _ rfl

/-- C5: for every input pair list containing at least one valid pair, the
Levels optimizer returns a non-null result whose parameters satisfy
`inputWhite ≥ inputBlack + 2` and `0.1 ≤ inputGamma ≤ 9.99`, surviving the
final rounding of `inputBlack`/`inputWhite` to integers and of gamma to two
decimals.  The theorem quantifies over the perceptual metric and the
(externally defined) levels forward function, so it holds for every
objective the restarts can see. -/
theorem C5_levels_params_invariant
    (dE : List ℚ → List ℚ → ℚ) (applyLvl : List ℚ → LevelsParams → List ℚ)
    (pairs : List ColorPair)
    (h : (pairs.filter pairValid).isEmpty = false) :
    ∃ r, optimizeLevels dE applyLvl pairs = some r ∧
      (r.params.inputBlack + 2 ≤ r.params.inputWhite ∧
        1/10 ≤ r.params.inputGamma ∧ r.params.inputGamma ≤ 999/100) := by
  obtain ⟨br, hbr⟩ := optimizeLevelsCore_isSome
    (levelsObjective dE applyLvl (pairs.filter pairValid))
  refine ⟨⟨levelsRound br.1,
      (computeLevelsError dE applyLvl (pairs.filter pairValid)
        (levelsRound br.1)).totalError,
      (computeLevelsError dE applyLvl (pairs.filter pairValid)
        (levelsRound br.1)).avgError,
      (computeLevelsError dE applyLvl (pairs.filter pairValid)
        (levelsRound br.1)).maxError,
      (computeLevelsError dE applyLvl (pairs.filter pairValid)
        (levelsRound br.1)).perPairResults,
      qualityOf (computeLevelsError dE applyLvl (pairs.filter pairValid)
        (levelsRound br.1)).avgError⟩, ?_, ?_⟩
  · simp only [optimizeLevels, h, Bool.false_eq_true, if_false]
    rw [hbr]
  · simpa using levelsRound_inv (optimizeLevelsCore_inv _ br hbr)

/-- The single-blend result object of `optimizeBlend`. -/
structure BlendResult where
  blend : Pt
  blendHex : String
  blendRgb : List ℚ
  totalError : ℚ
  avgError : ℚ
  maxError : ℚ
  perPairResults : List PerPair
  quality : String
deriving DecidableEq

/-- optimizer.js `optimizeBlend`: filter to valid pairs (null when none),
analytic initial guess, 3-D Nelder-Mead refinement (300 iterations,
tolerance 1e-7), final statistics and quality badge. -/
def optimizeBlend (dE : List ℚ → List ℚ → ℚ) (mode : Mode)
    (pairs : List ColorPair) : Option BlendResult :=
  let validPairs := pairs.filter pairValid
  if validPairs.isEmpty then none else
  let initialGuess := computeInitialGuess mode.inverse validPairs
  let objective := fun bn => (computeBlendError dE mode.name validPairs bn).totalError
  let optimized :=
    (nelderMead3 sortPairsByVal objective initialGuess 300 (1/10000000)).1
  let finalResult := computeBlendError dE mode.name validPairs optimized
  let blendRgb := optimized.map (fun c => ((jsRound (c * 255) : ℤ) : ℚ))
  some ⟨optimized, rgbToHex blendRgb, blendRgb, finalResult.totalError,
    finalResult.avgError, finalResult.maxError, finalResult.perPairResults,
    qualityOf finalResult.avgError⟩

/-- With every contributing pair carrying explicit weight 0, the accumulated
total weighted error and total weight are both 0, whatever the metric and
the achieved colors. -/
theorem errGo_zero_weight (dE : List ℚ → List ℚ → ℚ) (achieve : List ℚ → List ℚ)
    (ps : List ColorPair) (hw : ∀ p ∈ ps, p.weight = some 0) :
    (errGo dE achieve ps).2.1 = 0 ∧ (errGo dE achieve ps).2.2.1 = 0 := by
  induction ps with
  | nil => simp [errGo]
  | cons p rest ih =>
    have hp0 : weightOf p = 0 := by
      rw [weightOf, hw p (List.mem_cons_self p rest)]
      rfl
    have ihr := ih (fun q hq => hw q (List.mem_cons_of_mem p hq))
    rw [errGo]
    cases hs : hexToRgbO p.source with
    | none => exact ihr
    | some sRgb =>
      cases ht : hexToRgbO p.target with
      | none => exact ihr
      | some tRgb =>
        simp only [hp0, ihr.1, ihr.2]
        constructor <;> ring

/-- The accumulated `maxError` is the plain (weight-independent) maximum of
the per-pair errors. -/
theorem errGo_maxError_fold (dE : List ℚ → List ℚ → ℚ) (achieve : List ℚ → List ℚ)
    (ps : List ColorPair) :
    (errGo dE achieve ps).2.2.2 =
      ((errGo dE achieve ps).1.map PerPair.error).foldr max 0 := by
  induction ps with
  | nil => simp [errGo]
  | cons p rest ih =>
    rw [errGo]
    cases hs : hexToRgbO p.source with
    | none => exact ih
    | some sRgb =>
      cases ht : hexToRgbO p.target with
      | none => exact ih
      | some tRgb =>
        simp only [List.map_cons, List.foldr_cons]
        rw [← ih]

/-- C10: when every valid pair in the input has explicit weight 0 and at
least one valid pair exists, `optimizeBlend` returns a non-null result with
`totalError = 0` and `avgError = 0`, hence quality "exact", regardless of
the metric (so regardless of how far the achieved colors lie from the
targets); the per-pair error entries are unconstrained and `maxError` is
their plain maximum. -/
theorem C10_zero_weight_reports_exact (dE : List ℚ → List ℚ → ℚ) (mode : Mode)
    (pairs : List ColorPair)
    (hw : ∀ p ∈ pairs, pairValid p = true → p.weight = some 0)
    (hne : (pairs.filter pairValid).isEmpty = false) :
    ∃ r, optimizeBlend dE mode pairs = some r ∧
      r.totalError = 0 ∧ r.avgError = 0 ∧ r.quality = "exact" ∧
      r.maxError = (r.perPairResults.map PerPair.error).foldr max 0 := by
  have hval : ∀ p ∈ pairs.filter pairValid, p.weight = some 0 :=
    fun p hp => hw p (List.mem_of_mem_filter hp) (List.of_mem_filter hp)
  have havg : ∀ bn, (computeBlendError dE mode.name (pairs.filter pairValid)
      bn).avgError = 0 := by
    intro bn
    simp only [computeBlendError, mkStats]
    rw [(errGo_zero_weight dE _ _ hval).2]
    simp
  cases hopt : optimizeBlend dE mode pairs with
  | none =>
    exfalso
    simp only [optimizeBlend, hne, Bool.false_eq_true, if_false] at hopt
    cases hopt
  | some r =>
    refine ⟨r, rfl, ?_, ?_, ?_, ?_⟩
    all_goals
      simp only [optimizeBlend, hne, Bool.false_eq_true, if_false] at hopt
    all_goals
      obtain rfl := Option.some.inj hopt
    · exact (errGo_zero_weight dE _ _ hval).1
    · exact havg _
    · show qualityOf (computeBlendError dE mode.name (pairs.filter pairValid)
        _).avgError = "exact"
      rw [havg, qualityOf, if_pos (by norm_num)]
    · exact errGo_maxError_fold dE _ _

/-- Witness for C10: a single valid pair with explicit weight 0. -/
theorem C10_witness :
    (∀ p ∈ ([⟨some "#000000", some "#ffffff", some 0⟩] : List ColorPair),
        pairValid p = true → p.weight = some 0) ∧
    (((([⟨some "#000000", some "#ffffff", some 0⟩] : List ColorPair)).filter
        pairValid).isEmpty = false) ∧
    ∃ r, optimizeBlend (fun _ _ => 1000) ⟨"Multiply", multiplyInverse⟩
        [⟨some "#000000", some "#ffffff", some 0⟩] = some r ∧
      r.totalError = 0 ∧ r.avgError = 0 ∧ r.quality = "exact" ∧
      r.maxError = (r.perPairResults.map PerPair.error).foldr max 0 :=
  ⟨by
    intro p hp _
    rcases List.mem_singleton.mp hp with rfl
    rfl,
   rfl,
   C10_zero_weight_reports_exact (fun _ _ => 1000) ⟨"Multiply", multiplyInverse⟩ _
    (by
      intro p hp _
      rcases List.mem_singleton.mp hp with rfl
      rfl)
    rfl⟩

/-! ## The HSL tool (hslTool.js, colorUtils HSL helpers) -/

/-- Truncation toward zero, as JS number-to-integer conversion. -/
def ratTrunc (q : ℚ) : ℤ := if 0 ≤ q then q.floor else -((-q).floor)

/-- The JS remainder operator `a % b` (sign of the dividend). -/
def jsRem (a b : ℚ) : ℚ := a - b * ((ratTrunc (a / b) : ℤ) : ℚ)

/-- colorUtils `rgbToHsl` (input 0–255; hue in degrees, s and l in [0,1]).
The `switch (max)` matches `case r` first, then `case g`, then `case b`. -/
def rgbToHsl (r g b : ℚ) : ℚ × ℚ × ℚ :=
  let r := r / 255
  let g := g / 255
  let b := b / 255
  let mx := max r (max g b)
  let mn := min r (min g b)
  let l := (mx + mn) / 2
  if mx = mn then (0, 0, l)
  else
    let d := mx - mn
    let s := if l > 1/2 then d / (2 - mx - mn) else d / (mx + mn)
    let h :=
      if mx = r then ((g - b) / d + (if g < b then 6 else 0)) / 6
      else if mx = g then ((b - r) / d + 2) / 6
      else ((r - g) / d + 4) / 6
    (h * 360, s, l)

/-- colorUtils `hue2rgb` helper. -/
def hue2rgb (p q t : ℚ) : ℚ :=
  let t := if t < 0 then t + 1 else t
  let t := if t > 1 then t - 1 else t
  if t < 1/6 then p + (q - p) * 6 * t
  else if t < 1/2 then q
  else if t < 2/3 then p + (q - p) * (2/3 - t) * 6
  else p

/-- colorUtils `hslToRgb` (hue in degrees, s and l in [0,1]; output 0–255
rounded). -/
def hslToRgb (h s l : ℚ) : List ℚ :=
  let h := jsRem (jsRem h 360 + 360) 360
  let h := h / 360
  if s = 0 then
    let v := ((jsRound (l * 255) : ℤ) : ℚ)
    [v, v, v]
  else
    let q := if l < 1/2 then l * (1 + s) else l + s - l * s
    let p := 2 * l - q
    [((jsRound (hue2rgb p q (h + 1/3) * 255) : ℤ) : ℚ),
     ((jsRound (hue2rgb p q h * 255) : ℤ) : ℚ),
     ((jsRound (hue2rgb p q (h - 1/3) * 255) : ℤ) : ℚ)]

/-- colorUtils `applyHslAdjustment`: rotate hue in HSL space, convert back,
then apply saturation as a multiplicative spread around the (max+min)/2 gray
point and lightness as a linear fade toward black or white, clamping into
[0,255]. -/
def applyHslAdjustment (rgb : List ℚ) (hueShift satAdj lightAdj : ℚ) : List ℚ :=
  let hsl := rgbToHsl (rgb.getD 0 0) (rgb.getD 1 0) (rgb.getD 2 0)
  let h := jsRem (hsl.1 + hueShift) 360
  let h := if h < 0 then h + 360 else h
  let rgb2 := hslToRgb h hsl.2.1 hsl.2.2
  let r := rgb2.getD 0 0
  let g := rgb2.getD 1 0
  let b := rgb2.getD 2 0
  let gray := (max r (max g b) + min r (min g b)) / 2
  let satMultiplier :=
    if satAdj < 0 then 1 + satAdj / 100
    else if satAdj = 100 then 1000
    else 1 / (1 - satAdj / 100)
  let r := gray + (r - gray) * satMultiplier
  let g := gray + (g - gray) * satMultiplier
  let b := gray + (b - gray) * satMultiplier
  let lightMultiplier := lightAdj / 100
  let r := if lightAdj < 0 then r * (1 + lightMultiplier)
           else r + (255 - r) * lightMultiplier
  let g := if lightAdj < 0 then g * (1 + lightMultiplier)
           else g + (255 - g) * lightMultiplier
  let b := if lightAdj < 0 then b * (1 + lightMultiplier)
           else b + (255 - b) * lightMultiplier
  [clamp r 0 255, clamp g 0 255, clamp b 0 255]

/-- hslTool.js `computeHslError`. -/
def computeHslError (dE : List ℚ → List ℚ → ℚ) (pairs : List ColorPair)
    (hueShift satAdj lightAdj : ℚ) : ErrStats :=
  mkStats (errGo dE
    (fun sRgb => applyHslAdjustment sRgb hueShift satAdj lightAdj) pairs)

/-- The HSL bounds: hue in [-180,180], saturation and lightness in
[-100,100]. -/
def hslCfgs : List (ℚ × ℚ) := [(-180, 180), (-100, 100), (-100, 100)]

/-- The per-parameter simplex seeding steps of `nelderMead3D`. -/
def hslSteps : Pt := [30, 20, 20]

/-- hslTool.js `nelderMead3D`: like the other loops with the HSL bounds; as
in optimizer.js, the unperturbed seed vertex is not clamped. -/
def nelderMead3H (f : Pt → ℚ) (initial : Pt) (maxIterations : ℕ)
    (tolerance : ℚ) : Pt × ℚ :=
  let seeds := initial ::
    (List.range 3).map (fun i =>
      clampCfg hslCfgs (initial.set i (initial.getD i 0 + hslSteps.getD i 0)))
  let pairs0 := seeds.map (fun p => (p, f p))
  let res := nmIter sortPairsByVal (clampCfg hslCfgs) f tolerance 3 maxIterations pairs0
  argminPair res.1

/-- The HSL result object. -/
structure HslResult where
  hue : ℚ
  saturation : ℚ
  lightness : ℚ
  totalError : ℚ
  avgError : ℚ
  maxError : ℚ
  perPairResults : List PerPair
  quality : String
deriving DecidableEq

/-- The nine fixed starting points of `optimizeHsl`, in source order. -/
def hslStartingPoints : List Pt :=
  [[0, 0, 0], [0, -50, 0], [0, 50, 0], [0, 0, -30], [0, 0, 30],
   [60, 0, 0], [-60, 0, 0], [120, 0, 0], [-120, 0, 0]]

/-- The HSL objective over the flat parameter vector. -/
def hslObjective (dE : List ℚ → List ℚ → ℚ) (validPairs : List ColorPair)
    (p : Pt) : ℚ :=
  (computeHslError dE validPairs (p.getD 0 0) (p.getD 1 0) (p.getD 2 0)).totalError

/-- One restart of `optimizeHsl` (300 iterations, tolerance 1e-7), folded
into the running best. -/
def hslRestartStep (objective : Pt → ℚ) (acc : Option (Pt × ℚ)) (start : Pt) :
    Option (Pt × ℚ) :=
  let r := nelderMead3H objective start 300 (1/10000000)
  match acc with
  | none => some r
  | some b => if r.2 < b.2 then some r else some b

/-- hslTool.js `optimizeHsl`: filter to valid pairs (null when none), nine
restarts, round the best parameters to one decimal, final statistics and
quality badge. -/
def optimizeHsl (dE : List ℚ → List ℚ → ℚ) (pairs : List ColorPair) :
    Option HslResult :=
  let validPairs := pairs.filter pairValid
  if validPairs.isEmpty then none else
  match hslStartingPoints.foldl (hslRestartStep (hslObjective dE validPairs)) none with
  | none => none
  | some br =>
    let hue := ((jsRound (br.1.getD 0 0 * 10) : ℤ) : ℚ) / 10
    let sat := ((jsRound (br.1.getD 1 0 * 10) : ℤ) : ℚ) / 10
    let light := ((jsRound (br.1.getD 2 0 * 10) : ℤ) : ℚ) / 10
    let finalResult := computeHslError dE validPairs hue sat light
    some ⟨hue, sat, light, finalResult.totalError, finalResult.avgError,
      finalResult.maxError, finalResult.perPairResults, qualityOf finalResult.avgError⟩

/-! ## Multi-step optimizer (multiStepOptimizer.js): basin hopping -/

/-- multiStepOptimizer.js `perturbSolution`: offset every coordinate by
`(Math.random() − 0.5)·2·strength` and clamp into its bounds
(`paramConfigs[idx] || {min: 0, max: 1}`).  The random draws are supplied
per coordinate by `rands`. -/
def perturbSolution (solution : Pt) (strength : ℚ) (cfgs : List (ℚ × ℚ))
    (rands : ℕ → ℚ) : Pt :=
  (List.range solution.length).map (fun idx =>
    let c := cfgs.getD idx (0, 1)
    clamp (solution.getD idx 0 + (rands idx - 1/2) * 2 * strength) c.1 c.2)

/-- One basin hop of `jointOptimizeModeSequenceEnhanced`: perturb the
current solution with strength `0.2 + hop·0.1`, re-run a shorter
`nelderMeadMultiDim` (300 iterations, tolerance 1e-7, initial step 0.15),
and adopt the hop result only when its value is strictly lower.
`rand hop idx` is the `Math.random()` draw for coordinate `idx` of that
hop. -/
def basinHopStep (objective : Pt → ℚ) (cfgs : List (ℚ × ℚ))
    (rand : ℕ → ℕ → ℚ) (hop : ℕ) (cur : Pt × ℚ) : Pt × ℚ :=
  let perturbed := perturbSolution cur.1 (1/5 + (hop : ℚ) * (1/10)) cfgs (rand hop)
  let hopResult := (nelderMeadMulti objective perturbed 300 (1/10000000) (3/20) cfgs).1
  if hopResult.2 < cur.2 then hopResult else cur

/-- The (solution, value) pair held after `k` basin hops, starting from a
restart's converged solution `start`. -/
def basinSeq (objective : Pt → ℚ) (cfgs : List (ℚ × ℚ)) (rand : ℕ → ℕ → ℚ)
    (start : Pt × ℚ) : ℕ → Pt × ℚ
  | 0 => start
  | k + 1 => basinHopStep objective cfgs rand k (basinSeq objective cfgs rand start k)

/-- One full restart of `jointOptimizeModeSequenceEnhanced`: the
400-iteration Nelder-Mead (tolerance 1e-8, initial step 0.25) from the
restart's initial vector, followed by the basin-hopping loop. -/
def runRestart (objective : Pt → ℚ) (cfgs : List (ℚ × ℚ)) (rand : ℕ → ℕ → ℚ)
    (initial : Pt) (basinHops : ℕ) : Pt × ℚ :=
  basinSeq objective cfgs rand
    ((nelderMeadMulti objective initial 400 (1/100000000) (1/4) cfgs).1) basinHops

/-- C6: in the basin-hopping loop of `jointOptimizeModeSequenceEnhanced`,
for every objective, bounds, restart start point and outcome of the random
perturbations, the objective value retained after each hop is at most the
value held before that hop; a perturbed-and-refined solution is adopted
only when its value is strictly lower (otherwise the state is unchanged);
hence the per-restart best value never worsens across the loop. -/
theorem C6_basin_hopping_monotone (objective : Pt → ℚ) (cfgs : List (ℚ × ℚ))
    (rand : ℕ → ℕ → ℚ) (start : Pt × ℚ) (k : ℕ) :
    ((basinSeq objective cfgs rand start (k + 1)).2 ≤
        (basinSeq objective cfgs rand start k).2) ∧
    ((basinSeq objective cfgs rand start (k + 1)).2 <
        (basinSeq objective cfgs rand start k).2 ∨
      basinSeq objective cfgs rand start (k + 1) =
        basinSeq objective cfgs rand start k) ∧
    (basinSeq objective cfgs rand start k).2 ≤ start.2 := by
  have hstep : ∀ (j : ℕ) (cur : Pt × ℚ),
      ((basinHopStep objective cfgs rand j cur).2 ≤ cur.2) ∧
      ((basinHopStep objective cfgs rand j cur).2 < cur.2 ∨
        basinHopStep objective cfgs rand j cur = cur) := by
    intro j cur
    simp only [basinHopStep]
    split_ifs with h
    · exact ⟨le_of_lt h, Or.inl h⟩
    · exact ⟨le_refl _, Or.inr rfl⟩
  refine ⟨(hstep k _).1, (hstep k _).2, ?_⟩
  induction k with
  | zero => exact le_refl _
  | succ n ih => exact le_trans (hstep n _).1 ih

/-! ## Multi-step optimizer: top-solutions retention -/

/-- A step of a multi-step result as `updateTopSolutions` sees it: blend
steps carry the mode name and blend hex; HSL steps carry the rounded
(h, s, l) values; Levels steps carry the rounded parameter record (only
`inputGamma` enters the key, exactly as in the source). -/
structure MSStep where
  modeName : String
  blendHex : String
  hslValues : Option (ℤ × ℤ × ℤ)
  levelsValues : Option LevelsParams
deriving DecidableEq

/-- The per-step signature of `getKey`: "HSL:h,s,l", "LVL:gamma", or
"modeName:blendHex".  The source joins the per-step strings with "|"; since
no mode name or hex string contains "|" or the reserved prefixes and
distinct numbers print distinctly, that join is injective on reachable
values, so the key is modelled as the list of structured signatures. -/
inductive StepSig where
  | hslSig (h s l : ℤ)
  | lvlSig (gamma : ℚ)
  | blendSig (modeName blendHex : String)
deriving DecidableEq

/-- The per-step branch of `getKey`: `hslValues` first, then `levelsValues`,
else the mode/hex pair. -/
def stepKey (s : MSStep) : StepSig :=
  match s.hslValues with
  | some hsl => .hslSig hsl.1 hsl.2.1 hsl.2.2
  | none =>
    match s.levelsValues with
    | some lv => .lvlSig lv.inputGamma
    | none => .blendSig s.modeName s.blendHex

/-- A multi-step sequence result as retained by the top-solutions list.
Fields beyond `steps` and `avgError` (per-pair diagnostics, the
`singleBestMode`/`improvement` metadata spread into `metaResult`, …) play no
role in any claim and are omitted. -/
structure SeqResult where
  steps : List MSStep
  avgError : ℚ
deriving DecidableEq

/-- `getKey` of `updateTopSolutions`. -/
def getKey (r : SeqResult) : List StepSig := r.steps.map stepKey

/-- Stable ascending sort by `avgError` — the JS stable
`all.sort((a, b) => a.avgError - b.avgError)`. -/
def sortByAvg : List SeqResult → List SeqResult := sortByKey SeqResult.avgError

/-- The pre-truncation list of `updateTopSolutions`: when a stored entry has
the new result's key (first match by `findIndex`), replace it exactly when
the new result's `avgError` is strictly lower; otherwise append the new
result. -/
def updateAll (pre : List SeqResult) (newR : SeqResult) : List SeqResult :=
  match pre.findIdx? (fun s => decide (getKey s = getKey newR)) with
  | some i =>
    if newR.avgError < (pre.getD i newR).avgError then pre.set i newR else pre
  | none => pre ++ [newR]

/-- `MultiStepOptimizerAsync.updateTopSolutions` (MAX = 6). -/
def updateTopSolutions (pre : List SeqResult) (newR : SeqResult) : List SeqResult :=
  (sortByAvg (updateAll pre newR)).take 6

theorem findIdx?_some_get {p : α → Bool} :
    ∀ {l : List α} {i : ℕ}, l.findIdx? p = some i →
      ∃ h : i < l.length, p (l.get ⟨i, h⟩) = true := by
  intro l
  induction l with
  | nil => intro i h; simp at h
  | cons a t ih =>
    intro i h
    rw [List.findIdx?_cons] at h
    by_cases hpa : p a
    · rw [if_pos hpa] at h
      obtain rfl := Option.some.inj h
      exact ⟨by simp, hpa⟩
    · rw [if_neg hpa, List.findIdx?_succ] at h
      cases hmap : t.findIdx? p with
      | none => rw [hmap] at h; simp at h
      | some k =>
        rw [hmap] at h
        have h2 : k + 1 = i := by simpa using h
        subst h2
        obtain ⟨hk, hpk⟩ := ih hmap
        exact ⟨by simpa using Nat.succ_lt_succ hk, hpk⟩

theorem findIdx?_none_of_all {p : α → Bool} {l : List α}
    (h : ∀ a ∈ l, p a = false) : l.findIdx? p = none :=
  List.findIdx?_eq_none_iff.mpr h

theorem set_get_self : ∀ (l : List α) (i : ℕ) (h : i < l.length),
    l.set i (l.get ⟨i, h⟩) = l := by
  intro l
  induction l with
  | nil => intro i h; simp at h
  | cons a t ih =>
    intro i h
    cases i with
    | zero => simp
    | succ k => simpa using ih k (by simpa using h)

theorem updateAll_keys_pairwise {pre : List SeqResult} {newR : SeqResult}
    (hdist : (pre.map getKey).Pairwise (· ≠ ·)) :
    ((updateAll pre newR).map getKey).Pairwise (· ≠ ·) := by
  unfold updateAll
  cases hfind : pre.findIdx? (fun s => decide (getKey s = getKey newR)) with
  | none =>
    have hall : ∀ r ∈ pre, getKey r ≠ getKey newR := by
      intro r hr
      have := List.findIdx?_eq_none_iff.mp hfind r hr
      simpa using this
    rw [List.map_append, List.pairwise_append]
    refine ⟨hdist, by simp, ?_⟩
    intro a ha b hb
    simp only [List.map_cons, List.map_nil, List.mem_singleton] at hb
    subst hb
    obtain ⟨r, hr, rfl⟩ := List.mem_map.mp ha
    exact hall r hr
  | some i =>
    obtain ⟨hlt, hp⟩ := findIdx?_some_get hfind
    dsimp only
    split_ifs with hcmp
    · have hkeq : getKey (pre.get ⟨i, hlt⟩) = getKey newR := by
        simpa using hp
      rw [List.map_set, ← hkeq]
      have hfix : (pre.map getKey).set i (getKey (pre.get ⟨i, hlt⟩)) =
          pre.map getKey := by
        have hset := set_get_self (pre.map getKey) i (by simpa using hlt)
        have hgm : (pre.map getKey).get ⟨i, by simpa using hlt⟩ =
            getKey (pre.get ⟨i, hlt⟩) := by
          simp [List.getElem_map]
        rw [hgm] at hset
        exact hset
      rw [hfix]
      exact hdist
    · exact hdist

theorem updateAll_mem {pre : List SeqResult} {newR r : SeqResult}
    (hmem : r ∈ updateAll pre newR) : r ∈ pre ∨ r = newR := by
  revert hmem
  unfold updateAll
  cases hfind : pre.findIdx? (fun s => decide (getKey s = getKey newR)) with
  | none =>
    intro hmem
    rcases List.mem_append.mp hmem with h | h
    · exact Or.inl h
    · exact Or.inr (by simpa using h)
  | some i =>
    dsimp only
    split_ifs with hcmp
    · intro hmem
      exact List.mem_or_eq_of_mem_set hmem
    · intro hmem
      exact Or.inl hmem

/-- C9: `updateTopSolutions` (MAX_TOP_SOLUTIONS = 6) keeps at most six
sequence results; when the stored keys are pairwise distinct they remain
pairwise distinct; the kept list is sorted ascending by `avgError`; every
kept result is a previously stored result or the new one; a result whose
key matches no stored key is appended before sorting and truncation; and a
result whose key first matches the stored entry at index i replaces that
entry exactly when its `avgError` is strictly lower, the list being left
unchanged otherwise. -/
theorem C9_update_top_solutions (pre : List SeqResult) (newR : SeqResult)
    (hdist : (pre.map getKey).Pairwise (· ≠ ·)) :
    (updateTopSolutions pre newR).length ≤ 6 ∧
    ((updateTopSolutions pre newR).map getKey).Pairwise (· ≠ ·) ∧
    (updateTopSolutions pre newR).Pairwise
      (fun a b => a.avgError ≤ b.avgError) ∧
    (∀ r ∈ updateTopSolutions pre newR, r ∈ pre ∨ r = newR) ∧
    ((∀ r ∈ pre, getKey r ≠ getKey newR) →
      updateAll pre newR = pre ++ [newR]) ∧
    (∀ i, pre.findIdx? (fun s => decide (getKey s = getKey newR)) = some i →
      updateAll pre newR =
        if newR.avgError < (pre.getD i newR).avgError then pre.set i newR
        else pre) := by
  refine ⟨?_, ?_, ?_, ?_, ?_, ?_⟩
  · exact List.length_take_le 6 (sortByAvg (updateAll pre newR))
  · have hperm : ((sortByAvg (updateAll pre newR)).map getKey).Perm
        ((updateAll pre newR).map getKey) :=
      (sortByKey_perm SeqResult.avgError (updateAll pre newR)).map getKey
    have hsortedKeys : ((sortByAvg (updateAll pre newR)).map getKey).Pairwise
        (· ≠ ·) :=
      (List.Perm.pairwise_iff (fun h => Ne.symm h) hperm).mpr
        (updateAll_keys_pairwise hdist)
    show ((List.take 6 (sortByAvg (updateAll pre newR))).map getKey).Pairwise _
    rw [List.map_take]
    exact List.Pairwise.sublist (List.take_sublist 6 _) hsortedKeys
  · exact List.Pairwise.sublist (List.take_sublist 6 _)
      (sortByKey_sorted SeqResult.avgError (updateAll pre newR))
  · intro r hr
    have h1 : r ∈ sortByAvg (updateAll pre newR) := List.mem_of_mem_take hr
    exact updateAll_mem (sortByKey_mem.mp h1)
  · intro hall
    unfold updateAll
    rw [findIdx?_none_of_all (fun a ha => by simpa using hall a ha)]
  · intro i hfind
    unfold updateAll
    rw [hfind]

/-- Witness for C9: with an empty stored list and a one-step new result the
distinct-keys hypothesis holds trivially and the theorem yields the
retention invariants. -/
theorem C9_witness :
    (([] : List SeqResult).map getKey).Pairwise (· ≠ ·) ∧
    ((updateTopSolutions []
        ⟨[⟨"Multiply", "#808080", none, none⟩], 2⟩).length ≤ 6 ∧
      ∀ r ∈ updateTopSolutions []
          ⟨[⟨"Multiply", "#808080", none, none⟩], 2⟩,
        r ∈ ([] : List SeqResult) ∨
          r = ⟨[⟨"Multiply", "#808080", none, none⟩], 2⟩) := by
  refine ⟨List.Pairwise.nil, ?_⟩
  have h := C9_update_top_solutions []
    ⟨[⟨"Multiply", "#808080", none, none⟩], 2⟩ List.Pairwise.nil
  exact ⟨h.1, h.2.2.2.1⟩

/-! ## `MultiStepOptimizerAsync.optimize`: phases, cancellation, null -/

/-- A candidate sequence for joint optimization: the mode-name sequence and
the optional greedy initial blends (`initialBlends: null` for enumerated
sequences). -/
structure Candidate where
  modeSequence : List String
  initialBlends : Option (List Pt)
deriving DecidableEq

/-- The candidate dedup of phase 2: walk the concatenated greedy and
enumerated candidates, keeping the first candidate of each mode sequence
(the `seen` set is keyed by `modeSequence.join('|')`; mode names contain no
"|", so the key is modelled by the sequence itself). -/
def dedupCands : List Candidate → List (List String) → List Candidate
  | [], _ => []
  | c :: rest, seen =>
    if c.modeSequence ∈ seen then dedupCands rest seen
    else c :: dedupCands rest (c.modeSequence :: seen)

/-- `result && result.avgError < singleBestError`, with `Infinity` (no
finite best yet) as `none`. -/
def ltBest (v : ℚ) : Option ℚ → Bool
  | none => true
  | some b => decide (v < b)

/-- Phase 0 ("single") of `MultiStepOptimizerAsync.optimize`: for each
catalog mode, first check the cancellation flag — `cancelled cp` is the
flag's value at checkpoint number `cp` — then run the single-blend
optimizer (`evalMode`, yielding the average error or `none` for a null
result) and keep the smallest error with its mode name.  `.inr best`
models the cancelled `return this.bestResult`; `.inl` carries the next
checkpoint number and the single-best state to the later phases. -/
def msRunModes (cancelled : ℕ → Bool) (evalMode : Mode → Option ℚ) :
    List Mode → ℕ → Option ℚ → Option String → Option SeqResult →
    ((ℕ × Option ℚ × Option String) ⊕ Option SeqResult)
  | [], cp, sbe, sbm, _ => .inl (cp, sbe, sbm)
  | m :: rest, cp, sbe, sbm, best =>
    if cancelled cp then .inr best
    else
      match evalMode m with
      | some v =>
        if ltBest v sbe then
          msRunModes cancelled evalMode rest (cp + 1) (some v) (some m.name) best
        else msRunModes cancelled evalMode rest (cp + 1) sbe sbm best
      | none => msRunModes cancelled evalMode rest (cp + 1) sbe sbm best

/-- The state update after a successful candidate evaluation:
`updateTopSolutions` plus the best-result update
(`!this.bestResult || metaResult.avgError < this.bestResult.avgError`). -/
def msApplyResult (res : SeqResult) (best : Option SeqResult)
    (tops : List SeqResult) : Option SeqResult × List SeqResult :=
  (match best with
    | none => some res
    | some b => if res.avgError < b.avgError then some res else some b,
   updateTopSolutions tops res)

/-- Phase 3 ("optimizing"): per candidate, first check the cancellation
flag (returning `this.bestResult` as `.inr`), then evaluate the candidate
with `jointEval` — an oracle for `jointOptimizeModeSequenceEnhanced`, whose
randomness is external; `Except.error` models a thrown exception, caught
and skipped per candidate by the source's try/catch — and fold the
top-solutions/best-result updates.  `.inl` returns the final state of an
uncancelled run. -/
def msRunCands (cancelled : ℕ → Bool)
    (jointEval : Candidate → Except Unit (Option SeqResult)) :
    List Candidate → ℕ → Option SeqResult → List SeqResult →
    ((Option SeqResult × List SeqResult) ⊕ Option SeqResult)
  | [], _, best, tops => .inl (best, tops)
  | c :: rest, cp, best, tops =>
    if cancelled cp then .inr best
    else
      match jointEval c with
      | .error _ => msRunCands cancelled jointEval rest (cp + 1) best tops
      | .ok none => msRunCands cancelled jointEval rest (cp + 1) best tops
      | .ok (some res) =>
        msRunCands cancelled jointEval rest (cp + 1)
          (msApplyResult res best tops).1 (msApplyResult res best tops).2

/-- `MultiStepOptimizerAsync.optimize`.  Embedded: the best/topSolutions
seeding from `options.existingBest`, the valid-pair filter with its `null`
return, the per-mode cancellation checks of phase 0 (each preceding an
`optimizeBlend` call over the real catalog), the phase-2 dedup of greedy
plus enumerated candidates, the per-candidate cancellation checks and
try/catch of phase 3, the top-solutions and best-result updates, and the
final `return this.topSolutions`.  The greedy and enumeration phases depend
on `Math.random()` and are supplied as oracle inputs `greedyCands` and
`enumerated`; `jointEval` stands for `jointOptimizeModeSequenceEnhanced`
(its `metaResult` spread only adds metadata outside `SeqResult`'s fields).
The return value is `none` for `null`, `some (.inl r)` for the single best
result returned on cancellation, and `some (.inr tops)` for a completed
run. -/
def msOptimize (dE : List ℚ → List ℚ → ℚ) (cancelled : ℕ → Bool)
    (greedyCands : List Candidate) (enumerated : List (List String))
    (jointEval : Candidate → Except Unit (Option SeqResult))
    (pairs : List ColorPair) (existingBest : Option SeqResult) :
    Option (SeqResult ⊕ List SeqResult) :=
  let tops0 : List SeqResult :=
    match existingBest with
    | some b => [b]
    | none => []
  let validPairs := pairs.filter pairValid
  if validPairs.isEmpty then none
  else
    match msRunModes cancelled
        (fun m => (optimizeBlend dE m validPairs).map BlendResult.avgError)
        blendModesList 0 none none existingBest with
    | .inr b => b.map Sum.inl
    | .inl st =>
      match msRunCands cancelled jointEval
          (dedupCands
            (greedyCands ++ enumerated.map (fun s => ⟨s, none⟩)) [])
          st.1 existingBest tops0 with
      | .inr b => b.map Sum.inl
      | .inl st2 => some (Sum.inr st2.2)

/-- The best-result value held at each phase-3 checkpoint of an uncancelled
run: the value `return this.bestResult` would yield if the flag were first
observed at that candidate's check. -/
def candSnaps (jointEval : Candidate → Except Unit (Option SeqResult)) :
    List Candidate → Option SeqResult → List SeqResult →
    List (Option SeqResult)
  | [], _, _ => []
  | c :: rest, best, tops =>
    best ::
      (match jointEval c with
       | .error _ => candSnaps jointEval rest best tops
       | .ok none => candSnaps jointEval rest best tops
       | .ok (some res) =>
         candSnaps jointEval rest (msApplyResult res best tops).1
           (msApplyResult res best tops).2)

/-- The best-result value held at every cancellation checkpoint of the
uncancelled run: one checkpoint per catalog mode — during phase 0 the best
result never changes, so each holds `existingBest` — followed by the
per-candidate checkpoints of phase 3. -/
def msSnapshots (greedyCands : List Candidate) (enumerated : List (List String))
    (jointEval : Candidate → Except Unit (Option SeqResult))
    (existingBest : Option SeqResult) : List (Option SeqResult) :=
  let tops0 : List SeqResult :=
    match existingBest with
    | some b => [b]
    | none => []
  List.replicate blendModesList.length existingBest ++
    candSnaps jointEval
      (dedupCands (greedyCands ++ enumerated.map (fun s => ⟨s, none⟩)) [])
      existingBest tops0

theorem msRunModes_cancelled {cancelled : ℕ → Bool} {j : ℕ}
    (hcan : ∀ i, cancelled i = decide (j ≤ i)) (evalMode : Mode → Option ℚ) :
    ∀ (modes : List Mode) (cp : ℕ) (sbe : Option ℚ) (sbm : Option String)
      (best : Option SeqResult), cp ≤ j →
      (j < cp + modes.length →
        msRunModes cancelled evalMode modes cp sbe sbm best = .inr best) ∧
      (cp + modes.length ≤ j → ∃ sbe2 sbm2,
        msRunModes cancelled evalMode modes cp sbe sbm best =
          .inl (cp + modes.length, sbe2, sbm2)) := by
  intro modes
  induction modes with
  | nil =>
    intro cp sbe sbm best hcp
    constructor
    · intro h
      simp only [List.length_nil, Nat.add_zero] at h
      exact absurd h (Nat.not_lt.mpr hcp)
    · intro _
      exact ⟨sbe, sbm, by simp [msRunModes]⟩
  | cons m rest ih =>
    intro cp sbe sbm best hcp
    constructor
    · intro hlt
      rw [msRunModes]
      by_cases hj : j ≤ cp
      · rw [hcan cp, if_pos (decide_eq_true hj)]
      · have hcpj : cp + 1 ≤ j := by omega
        rw [hcan cp, decide_eq_false hj, if_neg Bool.false_ne_true]
        have hrec := fun sbe' sbm' =>
          (ih (cp + 1) sbe' sbm' best hcpj).1 (by simp at hlt ⊢; omega)
        cases evalMode m with
        | none => exact hrec sbe sbm
        | some v =>
          dsimp only
          split_ifs with hbetter
          · exact hrec (some v) (some m.name)
          · exact hrec sbe sbm
    · intro hge
      rw [msRunModes]
      have hj : ¬ j ≤ cp := by simp at hge; omega
      rw [hcan cp, decide_eq_false hj, if_neg Bool.false_ne_true]
      have hlen : cp + 1 + rest.length = cp + (m :: rest).length := by
        simp; omega
      have hrec : ∀ sbe' sbm', ∃ sbe2 sbm2,
          msRunModes cancelled evalMode rest (cp + 1) sbe' sbm' best =
            .inl (cp + (m :: rest).length, sbe2, sbm2) := by
        intro sbe' sbm'
        obtain ⟨sbe2, sbm2, heq⟩ :=
          (ih (cp + 1) sbe' sbm' best (by omega)).2 (by simp at hge ⊢; omega)
        exact ⟨sbe2, sbm2, by rw [heq, hlen]⟩
      cases evalMode m with
      | none => exact hrec sbe sbm
      | some v =>
        dsimp only
        split_ifs with hbetter
        · exact hrec (some v) (some m.name)
        · exact hrec sbe sbm

theorem msRunCands_cancelled {cancelled : ℕ → Bool} {j : ℕ}
    (hcan : ∀ i, cancelled i = decide (j ≤ i))
    (jointEval : Candidate → Except Unit (Option SeqResult)) :
    ∀ (cands : List Candidate) (cp : ℕ) (best : Option SeqResult)
      (tops : List SeqResult), cp ≤ j → j < cp + cands.length →
      msRunCands cancelled jointEval cands cp best tops =
        .inr ((candSnaps jointEval cands best tops).getD (j - cp) none) := by
  intro cands
  induction cands with
  | nil =>
    intro cp best tops hcp hlt
    simp only [List.length_nil, Nat.add_zero] at hlt
    exact absurd hlt (Nat.not_lt.mpr hcp)
  | cons c rest ih =>
    intro cp best tops hcp hlt
    rw [msRunCands, candSnaps]
    by_cases hj : j ≤ cp
    · rw [hcan cp, if_pos (decide_eq_true hj)]
      have h0 : j - cp = 0 := by omega
      rw [h0]
      rfl
    · have hcpj : cp + 1 ≤ j := by omega
      rw [hcan cp, decide_eq_false hj, if_neg Bool.false_ne_true]
      have hsub : j - cp = (j - (cp + 1)) + 1 := by omega
      have hlt2 : j < cp + 1 + rest.length := by simp at hlt; omega
      cases heval : jointEval c with
      | error e =>
        dsimp only
        rw [ih (cp + 1) best tops hcpj hlt2, hsub]
        rfl
      | ok o =>
        cases o with
        | none =>
          dsimp only
          rw [ih (cp + 1) best tops hcpj hlt2, hsub]
          rfl
        | some res =>
          dsimp only
          rw [ih (cp + 1) (msApplyResult res best tops).1
            (msApplyResult res best tops).2 hcpj hlt2, hsub]
          rfl

/-- C7: if the cancellation flag of an in-flight multi-step run first reads
true at checkpoint `j` (per-mode checks in phase 0, per-candidate checks in
phase 3), `optimize` returns the best result accumulated up to that
checkpoint — `existingBest` (possibly null) throughout phase 0 and the
running phase-3 best thereafter — wrapped as a non-error return, for every
catalog, pair list with a valid pair, and oracle outcome of the greedy,
enumeration and joint-optimization phases.  The model is a total function
(phase-3 exceptions are absorbed per candidate), so no failure escapes. -/
theorem C7_cancellation_returns_best (dE : List ℚ → List ℚ → ℚ)
    (cancelled : ℕ → Bool) (greedyCands : List Candidate)
    (enumerated : List (List String))
    (jointEval : Candidate → Except Unit (Option SeqResult))
    (pairs : List ColorPair) (existingBest : Option SeqResult) (j : ℕ)
    (hcan : ∀ i, cancelled i = decide (j ≤ i))
    (hvalid : (pairs.filter pairValid).isEmpty = false)
    (hj : j < blendModesList.length +
      (dedupCands (greedyCands ++ enumerated.map (fun s => ⟨s, none⟩))
        []).length) :
    msOptimize dE cancelled greedyCands enumerated jointEval pairs
        existingBest =
      ((msSnapshots greedyCands enumerated jointEval existingBest).getD j
          none).map Sum.inl := by
  unfold msOptimize msSnapshots
  dsimp only
  rw [hvalid, if_neg Bool.false_ne_true]
  by_cases hjm : j < blendModesList.length
  · rw [(msRunModes_cancelled hcan _ blendModesList 0 none none existingBest
      (Nat.zero_le j)).1 (by simpa using hjm)]
    have hget : (List.replicate blendModesList.length existingBest ++
        candSnaps jointEval
          (dedupCands (greedyCands ++ enumerated.map (fun s => ⟨s, none⟩)) [])
          existingBest (match existingBest with
            | some b => [b]
            | none => [])).getD j none = existingBest := by
      rw [List.getD_append _ _ _ j (by simpa using hjm)]
      rw [List.getD_eq_getElem?_getD, List.getElem?_replicate, if_pos hjm]
      rfl
    rw [hget]
  · obtain ⟨sbe2, sbm2, hmodes⟩ :=
      (msRunModes_cancelled hcan _ blendModesList 0 none none existingBest
        (Nat.zero_le j)).2 (by omega)
    rw [hmodes]
    clear hmodes
    dsimp only
    rw [msRunCands_cancelled hcan jointEval _ (0 + blendModesList.length)
      existingBest _ (by omega) (by omega)]
    have hget : (List.replicate blendModesList.length existingBest ++
        candSnaps jointEval
          (dedupCands (greedyCands ++ enumerated.map (fun s => ⟨s, none⟩)) [])
          existingBest (match existingBest with
            | some b => [b]
            | none => [])).getD j none =
        (candSnaps jointEval
          (dedupCands (greedyCands ++ enumerated.map (fun s => ⟨s, none⟩)) [])
          existingBest (match existingBest with
            | some b => [b]
            | none => [])).getD (j - blendModesList.length) none := by
      rw [List.getD_append_right _ _ _ j
        (by simp only [List.length_replicate]; omega)]
      rw [List.length_replicate]
    rw [hget]
    have : j - (0 + blendModesList.length) = j - blendModesList.length := by
      omega
    rw [this]

/-- Witness for C7: a flag set before the first checkpoint with an empty
existing best returns `null`'s image (`none.map Sum.inl = none`) at
checkpoint 0. -/
theorem C7_witness :
    (∀ i, (fun _ => true) i = decide (0 ≤ i)) ∧
    (([⟨some "#ff0000", some "#00ff00", none⟩] :
        List ColorPair).filter pairValid).isEmpty = false ∧
    0 < blendModesList.length +
      (dedupCands (([] : List Candidate) ++
        ([] : List (List String)).map (fun s => ⟨s, none⟩)) []).length ∧
    msOptimize (fun _ _ => 0) (fun _ => true) [] []
        (fun _ => .ok none) [⟨some "#ff0000", some "#00ff00", none⟩] none =
      ((msSnapshots [] [] (fun _ => .ok none) none).getD 0 none).map
        Sum.inl := by
  refine ⟨fun i => by simp, rfl, by decide, ?_⟩
  exact C7_cancellation_returns_best (fun _ _ => 0) (fun _ => true) [] []
    (fun _ => .ok none) [⟨some "#ff0000", some "#00ff00", none⟩] none 0
    (fun i => by simp) rfl (by decide)

/-- C8: for every pair list in which no pair has both a source and a
target, all four optimizer entry points — the single-blend `optimizeBlend`
(for every mode), `optimizeHsl`, `optimizeLevels`, and the multi-step
`optimize` — return `null` (here `none`), not an error. -/
theorem C8_no_valid_pairs_null (dE : List ℚ → List ℚ → ℚ)
    (applyLvl : List ℚ → LevelsParams → List ℚ) (mode : Mode)
    (cancelled : ℕ → Bool) (greedyCands : List Candidate)
    (enumerated : List (List String))
    (jointEval : Candidate → Except Unit (Option SeqResult))
    (pairs : List ColorPair) (existingBest : Option SeqResult)
    (h : ∀ p ∈ pairs, pairValid p = false) :
    optimizeBlend dE mode pairs = none ∧
    optimizeHsl dE pairs = none ∧
    optimizeLevels dE applyLvl pairs = none ∧
    msOptimize dE cancelled greedyCands enumerated jointEval pairs
      existingBest = none := by
  have hfilter : pairs.filter pairValid = [] := by
    rw [List.filter_eq_nil_iff]
    intro a ha
    simp [h a ha]
  have hemp : (pairs.filter pairValid).isEmpty = true := by
    rw [hfilter]
    rfl
  refine ⟨?_, ?_, ?_, ?_⟩
  · rw [optimizeBlend, hemp]
    rfl
  · rw [optimizeHsl, hemp]
    rfl
  · rw [optimizeLevels, hemp]
    rfl
  · unfold msOptimize
    simp [hemp]

/-- Witness for C8: a single pair with a source but no target is invalid,
and all four entry points return null on that list. -/
theorem C8_witness :
    (∀ p ∈ ([⟨some "#ff0000", none, none⟩] : List ColorPair),
      pairValid p = false) ∧
    (optimizeBlend (fun _ _ => 0) ⟨"Normal", normalInverse⟩
        [⟨some "#ff0000", none, none⟩] = none ∧
      optimizeHsl (fun _ _ => 0) [⟨some "#ff0000", none, none⟩] = none ∧
      optimizeLevels (fun _ _ => 0) (fun _ _ => [0, 0, 0])
        [⟨some "#ff0000", none, none⟩] = none ∧
      msOptimize (fun _ _ => 0) (fun _ => false) [] [] (fun _ => .ok none)
        [⟨some "#ff0000", none, none⟩] none = none) := by
  have h : ∀ p ∈ ([⟨some "#ff0000", none, none⟩] : List ColorPair),
      pairValid p = false := by
    intro p hp
    rw [List.mem_singleton] at hp
    subst hp
    rfl
  exact ⟨h, C8_no_valid_pairs_null (fun _ _ => 0) (fun _ _ => [0, 0, 0])
    ⟨"Normal", normalInverse⟩ (fun _ => false) [] [] (fun _ => .ok none)
    [⟨some "#ff0000", none, none⟩] none h⟩

/-- Witness for C5: the pair list `[{source: "#808080", target: "#808080"}]`
has a valid pair, so the theorem produces a non-null result with the
parameter invariant. -/
theorem C5_witness :
    (([⟨some "#808080", some "#808080", none⟩] :
        List ColorPair).filter pairValid).isEmpty = false ∧
    ∃ r, optimizeLevels (fun _ _ => 0) (fun _ _ => [0, 0, 0])
        [⟨some "#808080", some "#808080", none⟩] = some r ∧
      (r.params.inputBlack + 2 ≤ r.params.inputWhite ∧
        1/10 ≤ r.params.inputGamma ∧ r.params.inputGamma ≤ 999/100) :=
  ⟨rfl, C5_levels_params_invariant (fun _ _ => 0) (fun _ _ => [0, 0, 0])
    [⟨some "#808080", some "#808080", none⟩] rfl⟩

end ColorLab
